import Mathlib

/-!
Verification of the gander configuration-ingestion pipeline.

This file gives a shallow embedding of the loader code: variable
substitution (ParseConfigVariables / ParseConfigVariableOfType over the
regex pattern for dollar-brace placeholders), recursive include expansion
(RecursiveParseYAMLIncludes over the include-directive pattern), the line
prefixer (common.PrefixStringLines), and the structural validator
(IsConfigStateValid).  Strings are modelled as lists of characters (Go's
regexp engine works over runes), the environment and the filesystem as
functions from paths to optional contents, and fallible Go functions as
Except values, so that the Go convention of returning nil results together
with a non-nil error is rendered as the error constructor carrying only
the error.
-/

deriving instance DecidableEq for Except

namespace Gander

/-! ## Character classes used by the two regular expressions -/

/-- Lower or upper case ASCII letter, the a-zA-Z class. -/
def isAlphaChar (c : Char) : Bool :=
  (97 ≤ c.toNat && c.toNat ≤ 122) || (65 ≤ c.toNat && c.toNat ≤ 90)

/-- ASCII digit, the 0-9 class. -/
def isDigitChar (c : Char) : Bool :=
  48 ≤ c.toNat && c.toNat ≤ 57

/-- Character class of a variable name inside a placeholder: a-zA-Z0-9_- . -/
def isVarNameChar (c : Char) : Bool :=
  isAlphaChar c || isDigitChar c || c == '_' || c == '-'

/-- Character class of the strict env name pattern: A-Z0-9_ . -/
def isEnvNameChar (c : Char) : Bool :=
  (65 ≤ c.toNat && c.toNat ≤ 90) || isDigitChar c || c == '_'

/-- Go regexp MatchString of the anchored pattern envVariableNamePattern:
one or more characters of the strict class, nothing else. -/
def envVariableNameMatches (s : List Char) : Bool :=
  !s.isEmpty && s.all isEnvNameChar

/-- Space or tab, the class used by the include-directive pattern. -/
def isSpaceTab (c : Char) : Bool :=
  c == ' ' || c == '\t'

/-- Unicode white space as trimmed by Go strings.TrimSpace, restricted to
the ASCII space characters. -/
def isGoSpace (c : Char) : Bool :=
  c == ' ' || c == '\t' || c == '\n' || c == '\r' ||
    c == '\x0b' || c == '\x0c'

/-- Go strings.TrimSpace: drop white space from both ends. -/
def trimSpace (s : List Char) : List Char :=
  ((s.dropWhile isGoSpace).reverse.dropWhile isGoSpace).reverse

/-! ## Splitting and joining on a separator character

Go strings.Split with a one-character separator and strings.Join are
modelled on lists of characters.  splitOnChar always returns at least one
piece and the pieces never contain the separator. -/

/-- Go strings.Split on a single separator character. -/
def splitOnChar (sep : Char) : List Char → List (List Char)
  | [] => [[]]
  | c :: cs =>
    if c = sep then
      [] :: splitOnChar sep cs
    else
      match splitOnChar sep cs with
      | [] => [[c]]
      | l :: ls => (c :: l) :: ls

/-- Go strings.Join with a one-character separator. -/
def intercalateChar (sep : Char) : List (List Char) → List Char
  | [] => []
  | [x] => x
  | x :: xs => x ++ sep :: intercalateChar sep xs

theorem splitOnChar_ne_nil (sep : Char) (s : List Char) :
    splitOnChar sep s ≠ [] := by
  cases s with
  | nil => simp [splitOnChar]
  | cons c cs =>
    simp only [splitOnChar]
    split
    · simp
    · split <;> simp

theorem intercalateChar_splitOnChar (sep : Char) (s : List Char) :
    intercalateChar sep (splitOnChar sep s) = s := by
  induction s with
  | nil => rfl
  | cons c cs ih =>
    simp only [splitOnChar]
    split
    · rename_i h
      subst h
      have hne := splitOnChar_ne_nil c cs
      cases hsp : splitOnChar c cs with
      | nil => exact absurd hsp hne
      | cons l ls =>
        rw [hsp] at ih
        cases ls with
        | nil => simpa [intercalateChar] using congrArg (c :: ·) ih
        | cons l2 ls2 => simpa [intercalateChar] using congrArg (c :: ·) ih
    · rename_i h
      have hne := splitOnChar_ne_nil sep cs
      cases hsp : splitOnChar sep cs with
      | nil => exact absurd hsp hne
      | cons l ls =>
        rw [hsp] at ih
        cases ls with
        | nil => simpa [intercalateChar] using congrArg (c :: ·) ih
        | cons l2 ls2 => simpa [intercalateChar] using congrArg (c :: ·) ih

/-- Splitting a separator-free string yields the single piece. -/
theorem splitOnChar_of_not_mem {sep : Char} {s : List Char}
    (h : ∀ c ∈ s, c ≠ sep) : splitOnChar sep s = [s] := by
  induction s with
  | nil => rfl
  | cons c cs ih =>
    have hc : c ≠ sep := h c (List.mem_cons_self c cs)
    have ih' := ih (fun x hx => h x (List.mem_cons_of_mem c hx))
    simp only [splitOnChar, if_neg hc, ih']

/-- Splitting at the first separator occurrence after a separator-free
prefix. -/
theorem splitOnChar_append_cons {sep : Char} {a : List Char}
    (h : ∀ c ∈ a, c ≠ sep) (b : List Char) :
    splitOnChar sep (a ++ sep :: b) = a :: splitOnChar sep b := by
  induction a with
  | nil => simp [splitOnChar]
  | cons c cs ih =>
    have hc : c ≠ sep := h c (List.mem_cons_self c cs)
    have ih' := ih (fun x hx => h x (List.mem_cons_of_mem c hx))
    simp only [List.cons_append, splitOnChar, if_neg hc]
    rw [show cs.append (sep :: b) = cs ++ sep :: b from rfl, ih']

/-! ## The variable placeholder pattern

Go pattern: a group capturing the beginning of text or any single
character other than a newline, then a literal dollar and opening brace,
then an optional type made of letters followed by a colon, then a name in
the a-zA-Z0-9_- class, then a closing brace.  Go regexp uses
leftmost-first (Perl-style) matching; for this pattern the match at a
given position is deterministic: the optional type group matches exactly
when the maximal letter run after the brace is non-empty and is followed
by a colon, and the name is the maximal name-class run, which must be
non-empty and followed by the closing brace.  parsePlaceholder parses the
part of a match after the leading context group. -/

/-- Parse the maximal name-class run followed by the closing brace:
returns the name and the remainder after the brace. -/
def parseNameClose (s : List Char) : Option (List Char × List Char) :=
  let n := s.takeWhile isVarNameChar
  match s.dropWhile isVarNameChar with
  | '}' :: r3 => if n.isEmpty then none else some (n, r3)
  | _ => none

/-- Parse what follows the opening brace of a candidate placeholder:
optional letters-colon type, then the name, then the closing brace.
Returns the type (empty when absent), the name, and the remainder of the
input after the match. -/
def parseAfterBrace (rest : List Char) :
    Option (List Char × List Char × List Char) :=
  let t := rest.takeWhile isAlphaChar
  match rest.dropWhile isAlphaChar with
  | ':' :: r2 =>
    if t.isEmpty then none
    else
      match parseNameClose r2 with
      | some (n, r3) => some (t, n, r3)
      | none => none
  | _ => (parseNameClose rest).map (fun p => ([], p.1, p.2))

/-- Parse a placeholder at the head of the input: a literal dollar and
opening brace followed by the typed or untyped variable reference. -/
def parsePlaceholder : List Char → Option (List Char × List Char × List Char)
  | c1 :: c2 :: rest =>
    if c1 = '$' then
      if c2 = '{' then parseAfterBrace rest else none
    else none
  | _ => none

/-- The part of a consumed placeholder between the dollar-brace opening
and the end of the match. -/
def placeholderBody (t n : List Char) : List Char :=
  if t.isEmpty then n ++ ['}'] else t ++ ':' :: (n ++ ['}'])

/-- The text a successful placeholder parse consumed. -/
def reconstructPlaceholder (t n : List Char) : List Char :=
  '$' :: '{' :: placeholderBody t n

theorem parsePlaceholder_head {cs : List Char} {t n r : List Char}
    (h : parsePlaceholder cs = some (t, n, r)) :
    ∃ rest, cs = '$' :: '{' :: rest := by
  match cs with
  | [] => simp [parsePlaceholder] at h
  | [c] => simp [parsePlaceholder] at h
  | c1 :: c2 :: rest =>
    simp only [parsePlaceholder] at h
    split at h
    · split at h
      · rename_i h1 h2
        exact ⟨rest, by rw [h1, h2]⟩
      · exact absurd h (by simp)
    · exact absurd h (by simp)

theorem parsePlaceholder_of_ne_dollar {c : Char} (hc : c ≠ '$')
    (cs : List Char) : parsePlaceholder (c :: cs) = none := by
  match cs with
  | [] => simp [parsePlaceholder]
  | c2 :: rest => simp [parsePlaceholder, hc]

theorem parseNameClose_spec {s n r : List Char}
    (h : parseNameClose s = some (n, r)) :
    s = n ++ '}' :: r ∧ n ≠ [] ∧ n = s.takeWhile isVarNameChar := by
  simp only [parseNameClose] at h
  split at h
  · rename_i r3 heq
    split at h
    · exact absurd h (by simp)
    · rename_i hne
      simp only [Option.some.injEq, Prod.mk.injEq] at h
      obtain ⟨h1, h2⟩ := h
      subst h1; subst h2
      refine ⟨?_, by simpa using hne, rfl⟩
      conv_lhs => rw [← List.takeWhile_append_dropWhile (p := isVarNameChar) (l := s)]
      rw [heq]
  · exact absurd h (by simp)

theorem parseAfterBrace_spec {rest t n r : List Char}
    (h : parseAfterBrace rest = some (t, n, r)) :
    rest = placeholderBody t n ++ r ∧ n ≠ [] := by
  simp only [parseAfterBrace] at h
  split at h
  · rename_i r2 heq
    split at h
    · exact absurd h (by simp)
    · rename_i hte
      split at h
      · rename_i n3 r3 heq2
        simp only [Option.some.injEq, Prod.mk.injEq] at h
        obtain ⟨h1, h2, h3⟩ := h
        subst h1; subst h2; subst h3
        obtain ⟨hs, hn, _⟩ := parseNameClose_spec heq2
        refine ⟨?_, hn⟩
        rw [placeholderBody, if_neg hte]
        conv_lhs => rw [← List.takeWhile_append_dropWhile (p := isAlphaChar) (l := rest)]
        rw [heq, hs]
        simp
      · exact absurd h (by simp)
  · rename_i hnc
    cases hp : parseNameClose rest with
    | none => rw [hp] at h; exact absurd h (by simp)
    | some p =>
      rw [hp] at h
      simp only [Option.map_some', Option.some.injEq, Prod.mk.injEq] at h
      obtain ⟨h1, h2, h3⟩ := h
      subst h1; subst h2; subst h3
      obtain ⟨hs, hn, _⟩ := parseNameClose_spec hp
      refine ⟨?_, hn⟩
      rw [placeholderBody, if_pos (by simp)]
      simpa using hs

/-- A successful parse consumed exactly the reconstructed placeholder
text. -/
theorem parsePlaceholder_reconstruct {cs t n r : List Char}
    (h : parsePlaceholder cs = some (t, n, r)) :
    cs = reconstructPlaceholder t n ++ r ∧ n ≠ [] := by
  match cs with
  | [] => simp [parsePlaceholder] at h
  | [c] => simp [parsePlaceholder] at h
  | c1 :: c2 :: rest =>
    simp only [parsePlaceholder] at h
    split at h
    · split at h
      · rename_i h1 h2
        subst h1; subst h2
        obtain ⟨hs, hn⟩ := parseAfterBrace_spec h
        exact ⟨by rw [reconstructPlaceholder]; simpa using hs, hn⟩
      · exact absurd h (by simp)
    · exact absurd h (by simp)

theorem parsePlaceholder_length {cs t n r : List Char}
    (h : parsePlaceholder cs = some (t, n, r)) : r.length + 2 ≤ cs.length := by
  obtain ⟨hs, _⟩ := parsePlaceholder_reconstruct h
  rw [hs, reconstructPlaceholder]
  simp only [List.length_append, List.length_cons]
  omega

/-! ## The variable resolver -/

/-- Structured rendering of the error messages produced by
ParseConfigVariableOfType.  Each constructor carries the data the Go code
formats into the message. -/
inductive VarError where
  | envNotFound (name : List Char)
  | secretReadFailed (name : List Char)
  | fileFromEnvNotFound (name : List Char)
  | fileFromEnvNotAbsolute (path : List Char)
  | fileFromEnvReadFailed (name : List Char)
  deriving DecidableEq

/-- Result triple of ParseConfigVariableOfType: in Go it is a value, a
flag requesting that the original text be kept, and an error. -/
inductive VarLookup where
  | val (v : List Char)
  | original
  | err (e : VarError)
  deriving DecidableEq

/-- The ambient state the resolver reads: the process environment and the
filesystem (used both for secret files under the fixed secrets root and
for readFileFromEnv targets). -/
structure VarContext where
  env : List Char → Option (List Char)
  fs : List Char → Option (List Char)

/-- An absolute path starts with a slash (filepath.IsAbs on unix). -/
def isAbsPath (p : List Char) : Bool :=
  match p with
  | c :: _ => c == '/'
  | [] => false

/-- Direct translation of ParseConfigVariableOfType.  The secrets path is
the name joined under the fixed root, and file contents are trimmed. -/
def ParseConfigVariableOfType (ctx : VarContext)
    (variableType variableName : List Char) : VarLookup :=
  if variableType = ("env").data then
    if !envVariableNameMatches variableName then .original
    else
      match ctx.env variableName with
      | none => .err (.envNotFound variableName)
      | some v => .val v
  else if variableType = ("secret").data then
    match ctx.fs (("/run/secrets/").data ++ variableName) with
    | none => .err (.secretReadFailed variableName)
    | some s => .val (trimSpace s)
  else if variableType = ("readFileFromEnv").data then
    if !envVariableNameMatches variableName then .original
    else
      match ctx.env variableName with
      | none => .err (.fileFromEnvNotFound variableName)
      | some filePath =>
        if !isAbsPath filePath then .err (.fileFromEnvNotAbsolute filePath)
        else
          match ctx.fs filePath with
          | none => .err (.fileFromEnvReadFailed variableName)
          | some contents => .val (trimSpace contents)
  else .original

/-- An empty captured type group defaults to env (common.Ternary in
ParseConfigVariables). -/
def typeOrEnv (t : List Char) : List Char :=
  if t.isEmpty then ("env").data else t

/-! ## The replace-all scan of ParseConfigVariables

Go regexp.ReplaceAllFunc scans the original bytes left to right for
non-overlapping leftmost matches and substitutes the callback's output
without rescanning it.  The context group of the pattern matches either
the beginning of the text (only at absolute position zero, tried first)
or one character that is not a newline.  The callback keeps an escaped
match minus its leading backslash, keeps the whole match when the
resolver asks for the original text, substitutes prefix plus value
otherwise, and latches the first resolver error; with the error latched
the Go function returns nil bytes and that error, modelled by the error
constructor. -/

def replaceVars (resolve : List Char → List Char → VarLookup) :
    Bool → List Char → Except VarError (List Char)
  | _, [] => .ok []
  | true, c :: cs =>
    match h1 : parsePlaceholder (c :: cs) with
    | some (t, n, rest) =>
      match resolve (typeOrEnv t) n with
      | .err e => .error e
      | .original =>
        Except.map (fun o => reconstructPlaceholder t n ++ o)
          (replaceVars resolve false rest)
      | .val v => Except.map (fun o => v ++ o) (replaceVars resolve false rest)
    | none =>
      match h2 : (if c = '\n' then none else parsePlaceholder cs) with
      | some (t, n, rest) =>
        if c = '\\' then
          Except.map (fun o => reconstructPlaceholder t n ++ o)
            (replaceVars resolve false rest)
        else
          match resolve (typeOrEnv t) n with
          | .err e => .error e
          | .original =>
            Except.map (fun o => c :: (reconstructPlaceholder t n ++ o))
              (replaceVars resolve false rest)
          | .val v =>
            Except.map (fun o => c :: (v ++ o)) (replaceVars resolve false rest)
      | none => Except.map (fun o => c :: o) (replaceVars resolve false cs)
  | false, c :: cs =>
    match h2 : (if c = '\n' then none else parsePlaceholder cs) with
    | some (t, n, rest) =>
      if c = '\\' then
        Except.map (fun o => reconstructPlaceholder t n ++ o)
          (replaceVars resolve false rest)
      else
        match resolve (typeOrEnv t) n with
        | .err e => .error e
        | .original =>
          Except.map (fun o => c :: (reconstructPlaceholder t n ++ o))
            (replaceVars resolve false rest)
        | .val v =>
          Except.map (fun o => c :: (v ++ o)) (replaceVars resolve false rest)
    | none => Except.map (fun o => c :: o) (replaceVars resolve false cs)
termination_by _ cs => cs.length
decreasing_by
  all_goals try simp_wf
  all_goals try simp only [List.length_cons]
  all_goals first
    | (have hlen2 := parsePlaceholder_length h1
       simp only [List.length_cons] at hlen2
       omega)
    | (have h2' : parsePlaceholder cs = some (t, n, rest) := by
         split at h2
         · exact absurd h2 (by simp)
         · exact h2
       have := parsePlaceholder_length h2'
       omega)
    | omega

/-- Direct translation of ParseConfigVariables: run the replace-all scan
from the beginning of the text with the typed resolver. -/
def ParseConfigVariables (ctx : VarContext) (contents : List Char) :
    Except VarError (List Char) :=
  replaceVars (fun t n => ParseConfigVariableOfType ctx t n) true contents

/-! ### Unfolding lemmas for the scan -/

theorem parsePlaceholder_none_of_no_dollar {cs : List Char}
    (h : ∀ x ∈ cs, x ≠ '$') : parsePlaceholder cs = none := by
  cases hp : parsePlaceholder cs with
  | none => rfl
  | some v =>
    obtain ⟨t, n, r⟩ := v
    obtain ⟨rest, hr⟩ := parsePlaceholder_head hp
    exact absurd rfl (by subst hr; exact h '$' (by simp))

theorem replaceVars_newline (r : List Char → List Char → VarLookup)
    (b : Bool) (cs : List Char) :
    replaceVars r b ('\n' :: cs) =
      Except.map (fun o => '\n' :: o) (replaceVars r false cs) := by
  have hnp := parsePlaceholder_of_ne_dollar (c := '\n') (by decide) cs
  cases b with
  | false =>
    rw [replaceVars]
    split
    · rename_i t n rest heq
      rw [if_pos rfl] at heq
      exact absurd heq (by simp)
    · rfl
  | true =>
    rw [replaceVars]
    split
    · rename_i t n rest heq
      rw [hnp] at heq
      exact absurd heq (by simp)
    · split
      · rename_i t n rest heq
        rw [if_pos rfl] at heq
        exact absurd heq (by simp)
      · rfl

theorem replaceVars_false_emit (r : List Char → List Char → VarLookup)
    (c : Char) {cs : List Char} (h : parsePlaceholder cs = none) :
    replaceVars r false (c :: cs) =
      Except.map (fun o => c :: o) (replaceVars r false cs) := by
  rw [replaceVars]
  split
  · rename_i t n rest heq
    by_cases hc : c = '\n'
    · rw [if_pos hc] at heq
      exact absurd heq (by simp)
    · rw [if_neg hc, h] at heq
      exact absurd heq (by simp)
  · rfl

theorem replaceVars_true_emit (r : List Char → List Char → VarLookup)
    {c : Char} {cs : List Char} (h0 : parsePlaceholder (c :: cs) = none)
    (h : parsePlaceholder cs = none) :
    replaceVars r true (c :: cs) =
      Except.map (fun o => c :: o) (replaceVars r false cs) := by
  rw [replaceVars]
  split
  · rename_i t n rest heq
    rw [h0] at heq
    exact absurd heq (by simp)
  · split
    · rename_i t n rest heq
      by_cases hc : c = '\n'
      · rw [if_pos hc] at heq
        exact absurd heq (by simp)
      · rw [if_neg hc, h] at heq
        exact absurd heq (by simp)
    · rfl

/-- The substitution performed on a match at an interior position: the
context character is consumed, an escape keeps the placeholder text, the
resolver result decides between value, original text and latched error. -/
def midMatchResult (r : List Char → List Char → VarLookup) (c : Char)
    (t n rest : List Char) : Except VarError (List Char) :=
  if c = '\\' then
    Except.map (fun o => reconstructPlaceholder t n ++ o)
      (replaceVars r false rest)
  else
    match r (typeOrEnv t) n with
    | .err e => .error e
    | .original =>
      Except.map (fun o => c :: (reconstructPlaceholder t n ++ o))
        (replaceVars r false rest)
    | .val v => Except.map (fun o => c :: (v ++ o)) (replaceVars r false rest)

theorem replaceVars_false_match (r : List Char → List Char → VarLookup)
    {c : Char} {cs t n rest : List Char} (hc : c ≠ '\n')
    (h : parsePlaceholder cs = some (t, n, rest)) :
    replaceVars r false (c :: cs) = midMatchResult r c t n rest := by
  rw [replaceVars]
  split
  · rename_i t2 n2 rest2 heq
    rw [if_neg hc, h] at heq
    simp only [Option.some.injEq, Prod.mk.injEq] at heq
    obtain ⟨h1, h2, h3⟩ := heq
    subst h1; subst h2; subst h3
    rfl
  · rename_i heq
    rw [if_neg hc, h] at heq
    exact absurd heq (by simp)

theorem replaceVars_true_mid_match (r : List Char → List Char → VarLookup)
    {c : Char} {cs t n rest : List Char} (h0 : parsePlaceholder (c :: cs) = none)
    (hc : c ≠ '\n') (h : parsePlaceholder cs = some (t, n, rest)) :
    replaceVars r true (c :: cs) = midMatchResult r c t n rest := by
  rw [replaceVars]
  split
  · rename_i t2 n2 rest2 heq
    rw [h0] at heq
    exact absurd heq (by simp)
  · split
    · rename_i t2 n2 rest2 heq
      rw [if_neg hc, h] at heq
      simp only [Option.some.injEq, Prod.mk.injEq] at heq
      obtain ⟨h1, h2, h3⟩ := heq
      subst h1; subst h2; subst h3
      rfl
    · rename_i heq
      rw [if_neg hc, h] at heq
      exact absurd heq (by simp)

/-- The substitution performed on a match anchored at the beginning of
the text: no context character is consumed. -/
def startMatchResult (r : List Char → List Char → VarLookup)
    (t n rest : List Char) : Except VarError (List Char) :=
  match r (typeOrEnv t) n with
  | .err e => .error e
  | .original =>
    Except.map (fun o => reconstructPlaceholder t n ++ o)
      (replaceVars r false rest)
  | .val v => Except.map (fun o => v ++ o) (replaceVars r false rest)

theorem replaceVars_true_start_match (r : List Char → List Char → VarLookup)
    {cs t n rest : List Char} (h : parsePlaceholder cs = some (t, n, rest)) :
    replaceVars r true cs = startMatchResult r t n rest := by
  obtain ⟨rest0, hr⟩ := parsePlaceholder_head h
  subst hr
  rw [replaceVars]
  split
  · rename_i t2 n2 rest2 heq
    rw [h] at heq
    simp only [Option.some.injEq, Prod.mk.injEq] at heq
    obtain ⟨h1, h2, h3⟩ := heq
    subst h1; subst h2; subst h3
    rfl
  · rename_i heq
    rw [h] at heq
    exact absurd heq (by simp)

theorem replaceVars_nil (r : List Char → List Char → VarLookup) (b : Bool) :
    replaceVars r b [] = .ok [] := by
  rw [replaceVars]

/-- Interior scan of a dollar-free segment leaves it unchanged. -/
theorem replaceVars_no_dollar (r : List Char → List Char → VarLookup)
    {cs : List Char} (h : ∀ x ∈ cs, x ≠ '$') :
    replaceVars r false cs = .ok cs := by
  induction cs with
  | nil => exact replaceVars_nil r false
  | cons c cs ih =>
    have hcs : ∀ x ∈ cs, x ≠ '$' := fun x hx => h x (List.mem_cons_of_mem c hx)
    rw [replaceVars_false_emit r c (parsePlaceholder_none_of_no_dollar hcs),
      ih hcs]
    rfl

/-- Decidable check that no suffix of the text parses as a placeholder
match. -/
def containsPlaceholder : List Char → Bool
  | [] => false
  | c :: cs => (parsePlaceholder (c :: cs)).isSome || containsPlaceholder cs

theorem containsPlaceholder_parse {cs : List Char}
    (h : containsPlaceholder cs = false) : parsePlaceholder cs = none := by
  cases cs with
  | nil => rfl
  | cons c cs =>
    simp only [containsPlaceholder, Bool.or_eq_false_iff] at h
    exact Option.not_isSome_iff_eq_none.mp (by simp [h.1])

/-- A text with no placeholder match anywhere passes through the scan
unchanged, from any scan state. -/
theorem replaceVars_of_not_containsPlaceholder
    (r : List Char → List Char → VarLookup) {cs : List Char} (b : Bool)
    (h : containsPlaceholder cs = false) : replaceVars r b cs = .ok cs := by
  induction cs generalizing b with
  | nil => cases b <;> exact replaceVars_nil r _
  | cons c cs ih =>
    have h0 : parsePlaceholder (c :: cs) = none := containsPlaceholder_parse h
    simp only [containsPlaceholder, Bool.or_eq_false_iff] at h
    have h1 : parsePlaceholder cs = none := containsPlaceholder_parse h.2
    cases b with
    | false => rw [replaceVars_false_emit r c h1, ih false h.2]; rfl
    | true => rw [replaceVars_true_emit r h0 h1, ih false h.2]; rfl

/-! ### The reference scan

Specification scaffolding for the all-or-nothing property: walk the text
with exactly the same leftmost-match discipline as the replace-all scan,
but only report the first resolver error among the non-escaped matched
references (Go latches precisely this error).  The walk is independent of
resolved values because ReplaceAllFunc scans the original bytes and never
rescans replacement text. -/

def scanFirstErr (resolve : List Char → List Char → VarLookup) :
    Bool → List Char → Option VarError
  | _, [] => none
  | true, c :: cs =>
    match h1 : parsePlaceholder (c :: cs) with
    | some (t, n, rest) =>
      match resolve (typeOrEnv t) n with
      | .err e => some e
      | _ => scanFirstErr resolve false rest
    | none =>
      match h2 : (if c = '\n' then none else parsePlaceholder cs) with
      | some (t, n, rest) =>
        if c = '\\' then scanFirstErr resolve false rest
        else
          match resolve (typeOrEnv t) n with
          | .err e => some e
          | _ => scanFirstErr resolve false rest
      | none => scanFirstErr resolve false cs
  | false, c :: cs =>
    match h2 : (if c = '\n' then none else parsePlaceholder cs) with
    | some (t, n, rest) =>
      if c = '\\' then scanFirstErr resolve false rest
      else
        match resolve (typeOrEnv t) n with
        | .err e => some e
        | _ => scanFirstErr resolve false rest
    | none => scanFirstErr resolve false cs
termination_by _ cs => cs.length
decreasing_by
  all_goals try simp_wf
  all_goals try simp only [List.length_cons]
  all_goals first
    | (have hlen2 := parsePlaceholder_length h1
       simp only [List.length_cons] at hlen2
       omega)
    | (have h2' : parsePlaceholder cs = some (t, n, rest) := by
         split at h2
         · exact absurd h2 (by simp)
         · exact h2
       have := parsePlaceholder_length h2'
       omega)
    | omega

theorem scanFirstErr_nil (r : List Char → List Char → VarLookup) (b : Bool) :
    scanFirstErr r b [] = none := by
  rw [scanFirstErr]

theorem scanFirstErr_false_emit (r : List Char → List Char → VarLookup)
    (c : Char) {cs : List Char} (h : parsePlaceholder cs = none) :
    scanFirstErr r false (c :: cs) = scanFirstErr r false cs := by
  rw [scanFirstErr]
  split
  · rename_i t n rest heq
    by_cases hc : c = '\n'
    · rw [if_pos hc] at heq
      exact absurd heq (by simp)
    · rw [if_neg hc, h] at heq
      exact absurd heq (by simp)
  · rfl

theorem scanFirstErr_true_emit (r : List Char → List Char → VarLookup)
    {c : Char} {cs : List Char} (h0 : parsePlaceholder (c :: cs) = none)
    (h : parsePlaceholder cs = none) :
    scanFirstErr r true (c :: cs) = scanFirstErr r false cs := by
  rw [scanFirstErr]
  split
  · rename_i t n rest heq
    rw [h0] at heq
    exact absurd heq (by simp)
  · split
    · rename_i t n rest heq
      by_cases hc : c = '\n'
      · rw [if_pos hc] at heq
        exact absurd heq (by simp)
      · rw [if_neg hc, h] at heq
        exact absurd heq (by simp)
    · rfl

/-- The value of the reference scan on a match at an interior position. -/
def midMatchScan (r : List Char → List Char → VarLookup) (c : Char)
    (t n rest : List Char) : Option VarError :=
  if c = '\\' then scanFirstErr r false rest
  else
    match r (typeOrEnv t) n with
    | .err e => some e
    | _ => scanFirstErr r false rest

theorem scanFirstErr_false_match (r : List Char → List Char → VarLookup)
    {c : Char} {cs t n rest : List Char} (hc : c ≠ '\n')
    (h : parsePlaceholder cs = some (t, n, rest)) :
    scanFirstErr r false (c :: cs) = midMatchScan r c t n rest := by
  rw [scanFirstErr]
  split
  · rename_i t2 n2 rest2 heq
    rw [if_neg hc, h] at heq
    simp only [Option.some.injEq, Prod.mk.injEq] at heq
    obtain ⟨h1, h2, h3⟩ := heq
    subst h1; subst h2; subst h3
    rfl
  · rename_i heq
    rw [if_neg hc, h] at heq
    exact absurd heq (by simp)

theorem scanFirstErr_true_mid_match (r : List Char → List Char → VarLookup)
    {c : Char} {cs t n rest : List Char} (h0 : parsePlaceholder (c :: cs) = none)
    (hc : c ≠ '\n') (h : parsePlaceholder cs = some (t, n, rest)) :
    scanFirstErr r true (c :: cs) = midMatchScan r c t n rest := by
  rw [scanFirstErr]
  split
  · rename_i t2 n2 rest2 heq
    rw [h0] at heq
    exact absurd heq (by simp)
  · split
    · rename_i t2 n2 rest2 heq
      rw [if_neg hc, h] at heq
      simp only [Option.some.injEq, Prod.mk.injEq] at heq
      obtain ⟨h1, h2, h3⟩ := heq
      subst h1; subst h2; subst h3
      rfl
    · rename_i heq
      rw [if_neg hc, h] at heq
      exact absurd heq (by simp)

theorem scanFirstErr_true_start_match (r : List Char → List Char → VarLookup)
    {cs t n rest : List Char} (h : parsePlaceholder cs = some (t, n, rest)) :
    scanFirstErr r true cs =
      (match r (typeOrEnv t) n with
       | .err e => some e
       | _ => scanFirstErr r false rest) := by
  obtain ⟨rest0, hr⟩ := parsePlaceholder_head h
  subst hr
  rw [scanFirstErr]
  split
  · rename_i t2 n2 rest2 heq
    rw [h] at heq
    simp only [Option.some.injEq, Prod.mk.injEq] at heq
    obtain ⟨h1, h2, h3⟩ := heq
    subst h1; subst h2; subst h3
    rfl
  · rename_i heq
    rw [h] at heq
    exact absurd heq (by simp)

theorem scanFirstErr_newline (r : List Char → List Char → VarLookup)
    (b : Bool) (cs : List Char) :
    scanFirstErr r b ('\n' :: cs) = scanFirstErr r false cs := by
  have hnp := parsePlaceholder_of_ne_dollar (c := '\n') (by decide) cs
  cases b with
  | false =>
    rw [scanFirstErr]
    split
    · rename_i t n rest heq
      rw [if_pos rfl] at heq
      exact absurd heq (by simp)
    · rfl
  | true =>
    rw [scanFirstErr]
    split
    · rename_i t n rest heq
      rw [hnp] at heq
      exact absurd heq (by simp)
    · split
      · rename_i t n rest heq
        rw [if_pos rfl] at heq
        exact absurd heq (by simp)
      · rfl

/-- The replace-all scan errors exactly when the reference scan reports a
first failed reference, and with that same error; otherwise it succeeds. -/
theorem replaceVars_eq_scanFirstErr (r : List Char → List Char → VarLookup)
    (cs : List Char) (b : Bool) :
    (∀ e, scanFirstErr r b cs = some e → replaceVars r b cs = .error e) ∧
    (scanFirstErr r b cs = none → ∃ o, replaceVars r b cs = .ok o) := by
  suffices hgen : ∀ (len : Nat) (ds : List Char) (b2 : Bool), ds.length = len →
      (∀ e, scanFirstErr r b2 ds = some e → replaceVars r b2 ds = .error e) ∧
      (scanFirstErr r b2 ds = none → ∃ o, replaceVars r b2 ds = .ok o) from
    hgen cs.length cs b rfl
  intro len
  induction len using Nat.strong_induction_on with
  | _ len ih =>
  intro cs b hl
  cases cs with
  | nil =>
    refine ⟨fun e he => ?_, fun _ => ⟨[], replaceVars_nil r b⟩⟩
    rw [scanFirstErr_nil] at he
    exact absurd he (by simp)
  | cons c cs =>
    have hrec : ∀ (ds : List Char), ds.length < (c :: cs).length → ∀ b2,
        (∀ e, scanFirstErr r b2 ds = some e → replaceVars r b2 ds = .error e) ∧
        (scanFirstErr r b2 ds = none → ∃ o, replaceVars r b2 ds = .ok o) :=
      fun ds hds b2 => ih ds.length (by omega) ds b2 rfl
    have hmid : ∀ t n rest, parsePlaceholder cs = some (t, n, rest) → c ≠ '\n' →
        (∀ e, midMatchScan r c t n rest = some e →
          midMatchResult r c t n rest = .error e) ∧
        (midMatchScan r c t n rest = none →
          ∃ o, midMatchResult r c t n rest = .ok o) := by
      intro t n rest hp hc
      have hlen : rest.length < (c :: cs).length := by
        have := parsePlaceholder_length hp
        simp only [List.length_cons]
        omega
      have hr := hrec rest hlen false
      by_cases hb : c = '\\'
      · constructor
        · intro e he
          rw [midMatchScan, if_pos hb] at he
          rw [midMatchResult, if_pos hb, hr.1 e he]
          rfl
        · intro he
          rw [midMatchScan, if_pos hb] at he
          obtain ⟨o, ho⟩ := hr.2 he
          exact ⟨_, by rw [midMatchResult, if_pos hb, ho]; rfl⟩
      · constructor
        · intro e he
          rw [midMatchScan, if_neg hb] at he
          rw [midMatchResult, if_neg hb]
          cases hres : r (typeOrEnv t) n with
          | err e2 =>
            rw [hres] at he
            simp only [Option.some.injEq] at he
            subst he
            rfl
          | original =>
            rw [hres] at he
            rw [hr.1 e he]
            rfl
          | val v =>
            rw [hres] at he
            rw [hr.1 e he]
            rfl
        · intro he
          rw [midMatchScan, if_neg hb] at he
          rw [midMatchResult, if_neg hb]
          cases hres : r (typeOrEnv t) n with
          | err e2 =>
            rw [hres] at he
            exact absurd he (by simp)
          | original =>
            rw [hres] at he
            obtain ⟨o, ho⟩ := hr.2 he
            exact ⟨_, by rw [ho]; rfl⟩
          | val v =>
            rw [hres] at he
            obtain ⟨o, ho⟩ := hr.2 he
            exact ⟨_, by rw [ho]; rfl⟩
    cases b with
    | false =>
      by_cases hc : c = '\n'
      · subst hc
        rw [replaceVars_newline, scanFirstErr_newline]
        have hr := hrec cs (by simp) false
        refine ⟨fun e he => by rw [hr.1 e he]; rfl, fun he => ?_⟩
        obtain ⟨o, ho⟩ := hr.2 he
        exact ⟨_, by rw [ho]; rfl⟩
      · cases hp : parsePlaceholder cs with
        | none =>
          rw [replaceVars_false_emit r c hp, scanFirstErr_false_emit r c hp]
          have hr := hrec cs (by simp) false
          refine ⟨fun e he => by rw [hr.1 e he]; rfl, fun he => ?_⟩
          obtain ⟨o, ho⟩ := hr.2 he
          exact ⟨_, by rw [ho]; rfl⟩
        | some v =>
          obtain ⟨t, n, rest⟩ := v
          rw [replaceVars_false_match r hc hp, scanFirstErr_false_match r hc hp]
          exact hmid t n rest hp hc
    | true =>
      cases hp0 : parsePlaceholder (c :: cs) with
      | some v =>
        obtain ⟨t, n, rest⟩ := v
        rw [replaceVars_true_start_match r hp0, scanFirstErr_true_start_match r hp0]
        have hlen : rest.length < (c :: cs).length := by
          have := parsePlaceholder_length hp0
          simp only [List.length_cons] at this ⊢
          omega
        have hr := hrec rest hlen false
        rw [startMatchResult]
        cases hres : r (typeOrEnv t) n with
        | err e2 =>
          exact ⟨fun e he => by simp_all, fun he => by simp at he⟩
        | original =>
          refine ⟨fun e he => by rw [hr.1 e he]; rfl, fun he => ?_⟩
          obtain ⟨o, ho⟩ := hr.2 he
          exact ⟨_, by rw [ho]; rfl⟩
        | val v =>
          refine ⟨fun e he => by rw [hr.1 e he]; rfl, fun he => ?_⟩
          obtain ⟨o, ho⟩ := hr.2 he
          exact ⟨_, by rw [ho]; rfl⟩
      | none =>
        by_cases hc : c = '\n'
        · subst hc
          rw [replaceVars_newline, scanFirstErr_newline]
          have hr := hrec cs (by simp) false
          refine ⟨fun e he => by rw [hr.1 e he]; rfl, fun he => ?_⟩
          obtain ⟨o, ho⟩ := hr.2 he
          exact ⟨_, by rw [ho]; rfl⟩
        · cases hp : parsePlaceholder cs with
          | none =>
            rw [replaceVars_true_emit r hp0 hp, scanFirstErr_true_emit r hp0 hp]
            have hr := hrec cs (by simp) false
            refine ⟨fun e he => by rw [hr.1 e he]; rfl, fun he => ?_⟩
            obtain ⟨o, ho⟩ := hr.2 he
            exact ⟨_, by rw [ho]; rfl⟩
          | some v =>
            obtain ⟨t, n, rest⟩ := v
            rw [replaceVars_true_mid_match r hp0 hc hp,
              scanFirstErr_true_mid_match r hp0 hc hp]
            exact hmid t n rest hp hc

/-! ## Include expansion

The include directive pattern is multiline and anchored at both line
boundaries, and its trailing group cannot contain a newline, so every
match is exactly one whole line; ReplaceAllFunc on the document is
therefore modelled by splitting the document on newlines, transforming
directive lines, and joining again.  The filesystem is a function from
paths to optional contents; the current working directory is modelled as
the root so that filepath.Abs leaves absolute paths unchanged.  Path
cleaning performed by filepath.Join and filepath.Dir is not modelled
(no claim involves dot segments). -/

/-- common.PrefixStringLines: split on newlines, prefix every line, join
back. -/
def PrefixStringLines (prefix2 s : List Char) : List Char :=
  intercalateChar '\n' ((splitOnChar '\n' s).map (fun l => prefix2 ++ l))

/-- filepath.Abs with the working directory modelled as the root. -/
def goAbs (p : List Char) : List Char :=
  if isAbsPath p then p else '/' :: p

/-- filepath.Dir without cleaning: everything before the final slash,
the root for a top-level absolute path, dot for a bare name. -/
def goDir (p : List Char) : List Char :=
  match p.reverse.dropWhile (fun c => !(c == '/')) with
  | [] => ['.']
  | _ :: rest => if rest.isEmpty then ['/'] else rest.reverse

/-- filepath.Join without cleaning. -/
def goJoin (dir p : List Char) : List Char :=
  dir ++ '/' :: p

/-- Map insertion into the visited include set, modelled as a duplicate-free
list in insertion order. -/
def insertPath (p : List Char) (s : List (List Char)) : List (List Char) :=
  if p ∈ s then s else s ++ [p]

/-- Parse one line against the include directive pattern: optional
space-tab indent (captured), optional dash with trailing space-tab run,
a bang or dollar marker, the literal include keyword with colon, a
space-tab run, then the non-empty rest of the line (captured).  When only
white space follows the colon, greedy backtracking leaves exactly the
last white space character in the captured group. -/
def parseIncludeLine (l : List Char) : Option (List Char × List Char) :=
  let indent := l.takeWhile isSpaceTab
  let r1 := l.dropWhile isSpaceTab
  let r2 := match r1 with
            | '-' :: rr => rr.dropWhile isSpaceTab
            | _ => r1
  match r2 with
  | m :: r3 =>
    if m = '!' ∨ m = '$' then
      match r3 with
      | 'i' :: 'n' :: 'c' :: 'l' :: 'u' :: 'd' :: 'e' :: ':' :: r4 =>
        match r4.dropWhile isSpaceTab with
        | [] => (r4.getLast?).map (fun c => (indent, [c]))
        | rem => some (indent, rem)
      | _ => none
    else none
  | [] => none

/-- Resolution of a directive's captured path: trim, then join relative
paths under the including file's directory. -/
def resolveIncludePath (dir rawPath : List Char) : List Char :=
  let p := trimSpace rawPath
  if isAbsPath p then p else goJoin dir p

/-- Structured rendering of the errors of RecursiveParseYAMLIncludes. -/
inductive LoadError where
  | depthLimit (limit : Nat)
  | readError (path : List Char)
  deriving DecidableEq

def CONFIG_INCLUDE_RECURSION_DEPTH_LIMIT : Nat := 20

/-- One pass over the lines of a file, generic in the expansion used for
nested includes: a directive line is replaced by the recursively expanded
include re-indented with the captured indent (the path is recorded in the
visited set before recursing), any other line is kept; any nested error
aborts the pass, matching the Go error latch. -/
def processLinesWith {ε : Type}
    (expand : List Char → List (List Char) →
      Except ε (List Char × List (List Char)))
    (dir : List Char) :
    List (List Char) → List (List Char) →
    Except ε (List (List Char) × List (List Char))
  | [], includes => .ok ([], includes)
  | l :: ls, includes =>
    match parseIncludeLine l with
    | none =>
      match processLinesWith expand dir ls includes with
      | .error e => .error e
      | .ok (rs, includes2) => .ok (l :: rs, includes2)
    | some (indent, rawPath) =>
      let ip := resolveIncludePath dir rawPath
      match expand ip (insertPath ip includes) with
      | .error e => .error e
      | .ok (sub, includes2) =>
        match processLinesWith expand dir ls includes2 with
        | .error e => .error e
        | .ok (rs, includes3) => .ok (PrefixStringLines indent sub :: rs, includes3)

/-- Body of RecursiveParseYAMLIncludes with the remaining recursion
allowance as fuel: fuel stands for limit plus one minus depth, so fuel
zero is exactly the Go guard depth greater than limit.  Reads the file,
then rewrites its lines, threading the visited include set; an error from
any nested expansion makes the whole call return only that error,
matching Go returning nil contents and a nil include set with it. -/
def expandAux (fs : List Char → Option (List Char)) :
    Nat → List Char → List (List Char) →
    Except LoadError (List Char × List (List Char))
  | 0, _, _ => .error (.depthLimit CONFIG_INCLUDE_RECURSION_DEPTH_LIMIT)
  | fuel + 1, path, includes =>
    match fs path with
    | none => .error (.readError path)
    | some contents =>
      match processLinesWith (fun p inc => expandAux fs fuel p inc)
          (goDir (goAbs path)) (splitOnChar '\n' contents) includes with
      | .error e => .error e
      | .ok (outLines, includes2) =>
        .ok (intercalateChar '\n' outLines, includes2)

/-- Direct translation of RecursiveParseYAMLIncludes: the upward-counting
depth with its limit guard is rendered as downward-counting fuel. -/
def RecursiveParseYAMLIncludes (fs : List Char → Option (List Char))
    (mainFilePath : List Char) (includes : List (List Char)) (depth : Nat) :
    Except LoadError (List Char × List (List Char)) :=
  expandAux fs (CONFIG_INCLUDE_RECURSION_DEPTH_LIMIT + 1 - depth)
    mainFilePath includes

/-- Direct translation of ParseYAMLIncludes: expansion from the root at
depth zero with an empty visited set. -/
def ParseYAMLIncludes (fs : List Char → Option (List Char))
    (mainFilePath : List Char) :
    Except LoadError (List Char × List (List Char)) :=
  RecursiveParseYAMLIncludes fs mainFilePath [] 0

/-! ## The document assembler -/

/-- Error of either phase of an assembly. -/
inductive AssembleError where
  | load (e : LoadError)
  | var (e : VarError)
  deriving DecidableEq

/-- Modelled from the spec: the Document Assembler composition.  The call
site wiring the two phases together is not among the provided sources;
both phases are, and NewConfigFromYAML applies ParseConfigVariables as its
first step to the assembled bytes it is handed, so the assembly is include
expansion from the root followed by one variable substitution pass over
the assembled document. -/
def assembleDocument (fs : List Char → Option (List Char)) (ctx : VarContext)
    (rootPath : List Char) :
    Except AssembleError (List Char × List (List Char)) :=
  match ParseYAMLIncludes fs rootPath with
  | .error e => .error (.load e)
  | .ok (bytes, includes) =>
    match ParseConfigVariables ctx bytes with
    | .error e => .error (.var e)
    | .ok resolved => .ok (resolved, includes)

/-- Modelled from the spec: the alternative assembly order the spec
prescribes, in which each file's variables are resolved against that
file's own content prior to splicing and the assembled document is not
re-passed through substitution.  Stated only to be compared against the
assembly above. -/
def specExpandAux (fs : List Char → Option (List Char)) (ctx : VarContext) :
    Nat → List Char → List (List Char) →
    Except AssembleError (List Char × List (List Char))
  | 0, _, _ => .error (.load (.depthLimit CONFIG_INCLUDE_RECURSION_DEPTH_LIMIT))
  | fuel + 1, path, includes =>
    match fs path with
    | none => .error (.load (.readError path))
    | some contents =>
      match ParseConfigVariables ctx contents with
      | .error e => .error (.var e)
      | .ok substituted =>
        match processLinesWith (fun p inc => specExpandAux fs ctx fuel p inc)
            (goDir (goAbs path)) (splitOnChar '\n' substituted) includes with
        | .error e => .error e
        | .ok (outLines, includes2) =>
          .ok (intercalateChar '\n' outLines, includes2)

/-- Modelled from the spec: whole-tree assembly in the spec's per-file
substitution order. -/
def specAssembleDocument (fs : List Char → Option (List Char))
    (ctx : VarContext) (rootPath : List Char) :
    Except AssembleError (List Char × List (List Char)) :=
  specExpandAux fs ctx (CONFIG_INCLUDE_RECURSION_DEPTH_LIMIT + 1) rootPath []

/-! ## The structural validator

Decoded-configuration model restricted to the fields IsConfigStateValid
reads.  Go iterates the user map in unspecified order; users are modelled
as an association list iterated in order.  The only filesystem access is
the existence test on the assets directory, passed in as a predicate.
Errors are structured constructors carrying the data the Go messages
format; page and column numbers are the one-based indices of the
messages. -/

structure User where
  password : List Char
  passwordHashString : List Char
  deriving DecidableEq

structure Column where
  size : List Char
  deriving DecidableEq

structure Page where
  title : List Char
  width : List Char
  desktopNavigationWidth : List Char
  columns : List Column
  deriving DecidableEq

structure Config where
  serverAssetsPath : List Char
  authSecretKey : List Char
  authUsers : List (List Char × User)
  pages : List Page
  deriving DecidableEq

inductive ConfigError where
  | noPages
  | secretKeyMissing
  | userNoName
  | usernameTooShort
  | userNoPasswordOrHash (username : List Char)
  | passwordTooShort (username : List Char)
  | assetsDirMissing (path : List Char)
  | pageNoName (page : Nat)
  | pageBadWidth (page : Nat)
  | pageBadNavWidth (page : Nat)
  | pageNoColumns (page : Nat)
  | pageSlimTooManyColumns (page : Nat)
  | pageTooManyColumns (page : Nat)
  | columnBadSize (column : Nat) (page : Nat)
  | pageFullColumns (page : Nat)
  deriving DecidableEq

/-- The per-user checks of the user loop. -/
def validateUser (username : List Char) (user : User) : Option ConfigError :=
  if username = [] then some .userNoName
  else if username.length < 3 then some .usernameTooShort
  else if user.password = [] then
    if user.passwordHashString = [] then some (.userNoPasswordOrHash username)
    else none
  else if user.password.length < 6 then some (.passwordTooShort username)
  else none

def validateUsers : List (List Char × User) → Option ConfigError
  | [] => none
  | (u, us) :: rest =>
    match validateUser u us with
    | some e => some e
    | none => validateUsers rest

/-- The per-column size check, numbering columns from one. -/
def validateColumns (page : Nat) : Nat → List Column → Option ConfigError
  | _, [] => none
  | j, col :: cols =>
    if col.size ≠ ("small").data ∧ col.size ≠ ("full").data then
      some (.columnBadSize j page)
    else validateColumns page (j + 1) cols

/-- The count of full-size columns: in Go a size-to-count map is built
over all columns and its full entry read. -/
def countFullColumns (cols : List Column) : Nat :=
  cols.countP (fun c => c.size == ("full").data)

/-- The per-page checks, in source order. -/
def validatePage (page : Nat) (p : Page) : Option ConfigError :=
  if p.title = [] then some (.pageNoName page)
  else if p.width ≠ [] ∧ p.width ≠ ("wide").data ∧ p.width ≠ ("slim").data ∧
      p.width ≠ ("default").data then some (.pageBadWidth page)
  else if p.desktopNavigationWidth ≠ [] ∧
      p.desktopNavigationWidth ≠ ("wide").data ∧
      p.desktopNavigationWidth ≠ ("slim").data ∧
      p.desktopNavigationWidth ≠ ("default").data then some (.pageBadNavWidth page)
  else if p.columns = [] then some (.pageNoColumns page)
  else if p.width = ("slim").data ∧ 2 < p.columns.length then
    some (.pageSlimTooManyColumns page)
  else if p.width ≠ ("slim").data ∧ 3 < p.columns.length then
    some (.pageTooManyColumns page)
  else
    match validateColumns page 1 p.columns with
    | some e => some e
    | none =>
      if 2 < countFullColumns p.columns ∨ countFullColumns p.columns = 0 then
        some (.pageFullColumns page)
      else none

def validatePages : Nat → List Page → Option ConfigError
  | _, [] => none
  | i, p :: ps =>
    match validatePage (i + 1) p with
    | some e => some e
    | none => validatePages (i + 1) ps

/-- Direct translation of IsConfigStateValid; a none result is the Go nil
error. -/
def IsConfigStateValid (fsExists : List Char → Bool) (c : Config) :
    Option ConfigError :=
  if c.pages = [] then some .noPages
  else if c.authUsers ≠ [] ∧ c.authSecretKey = [] then some .secretKeyMissing
  else
    match validateUsers c.authUsers with
    | some e => some e
    | none =>
      if c.serverAssetsPath ≠ [] ∧ !fsExists c.serverAssetsPath then
        some (.assetsDirMissing c.serverAssetsPath)
      else validatePages 0 c.pages

/-! ### Unfolding lemmas for the expansion -/

theorem processLinesWith_nil {e : Type}
    (expand : List Char → List (List Char) →
      Except e (List Char × List (List Char))) (dir : List Char)
    (inc : List (List Char)) :
    processLinesWith expand dir [] inc = .ok ([], inc) := rfl

theorem processLinesWith_cons_plain {e : Type}
    (expand : List Char → List (List Char) →
      Except e (List Char × List (List Char))) (dir : List Char)
    {l : List Char} (ls : List (List Char)) (inc : List (List Char))
    (h : parseIncludeLine l = none) :
    processLinesWith expand dir (l :: ls) inc =
      match processLinesWith expand dir ls inc with
      | .error e2 => .error e2
      | .ok (rs, i2) => .ok (l :: rs, i2) := by
  rw [processLinesWith, h]

theorem processLinesWith_cons_directive {e : Type}
    (expand : List Char → List (List Char) →
      Except e (List Char × List (List Char))) (dir : List Char)
    {l indent rawPath : List Char} (ls : List (List Char))
    (inc : List (List Char)) (h : parseIncludeLine l = some (indent, rawPath)) :
    processLinesWith expand dir (l :: ls) inc =
      match expand (resolveIncludePath dir rawPath)
          (insertPath (resolveIncludePath dir rawPath) inc) with
      | .error e2 => .error e2
      | .ok (sub, i2) =>
        match processLinesWith expand dir ls i2 with
        | .error e2 => .error e2
        | .ok (rs, i3) => .ok (PrefixStringLines indent sub :: rs, i3) := by
  rw [processLinesWith, h]

theorem expandAux_zero (fs : List Char → Option (List Char))
    (path : List Char) (inc : List (List Char)) :
    expandAux fs 0 path inc =
      .error (.depthLimit CONFIG_INCLUDE_RECURSION_DEPTH_LIMIT) := rfl

theorem expandAux_read_fail (fs : List Char → Option (List Char))
    (fuel : Nat) {path : List Char} (inc : List (List Char))
    (h : fs path = none) :
    expandAux fs (fuel + 1) path inc = .error (.readError path) := by
  rw [expandAux, h]

theorem expandAux_read (fs : List Char → Option (List Char))
    (fuel : Nat) {path contents : List Char} (inc : List (List Char))
    (h : fs path = some contents) :
    expandAux fs (fuel + 1) path inc =
      match processLinesWith (fun a b => expandAux fs fuel a b)
          (goDir (goAbs path)) (splitOnChar '\n' contents) inc with
      | .error e => .error e
      | .ok (outLines, i2) => .ok (intercalateChar '\n' outLines, i2) := by
  rw [expandAux, h]

/-! ## Claim C2: the recursion depth limit -/

/-- A well-formed absolute include target: absolute and free of white
space (so trimming and line splitting leave it alone). -/
def cleanAbsPath (q : List Char) : Prop :=
  isAbsPath q = true ∧ ∀ c ∈ q, isGoSpace c = false

instance (q : List Char) : Decidable (cleanAbsPath q) := by
  unfold cleanAbsPath
  infer_instance

/-- The text of an include directive line referring to q. -/
def incLine (q : List Char) : List Char :=
  ("!include: ").data ++ q

theorem dropWhile_all_false {p : Char → Bool} {l : List Char}
    (h : ∀ c ∈ l, p c = false) : l.dropWhile p = l := by
  cases l with
  | nil => rfl
  | cons c cs => simp [List.dropWhile, h c (by simp)]

theorem trimSpace_eq_self {q : List Char}
    (h : ∀ c ∈ q, isGoSpace c = false) : trimSpace q = q := by
  rw [trimSpace, dropWhile_all_false h,
    dropWhile_all_false (fun c hc => h c (List.mem_reverse.mp hc)),
    List.reverse_reverse]

theorem isAbsPath_shape {q : List Char} (h : isAbsPath q = true) :
    ∃ q2, q = '/' :: q2 := by
  match q with
  | [] => exact absurd h (by simp [isAbsPath])
  | c :: q2 =>
    simp only [isAbsPath, beq_iff_eq] at h
    exact ⟨q2, by rw [h]⟩

theorem parseIncludeLine_incLine {q2 : List Char} :
    parseIncludeLine (incLine ('/' :: q2)) = some ([], '/' :: q2) := by
  simp [parseIncludeLine, incLine, isSpaceTab, List.takeWhile, List.dropWhile]

theorem resolveIncludePath_clean {dir q : List Char} (h : cleanAbsPath q) :
    resolveIncludePath dir q = q := by
  rw [resolveIncludePath, trimSpace_eq_self h.2]
  simp [h.1]

theorem cleanAbsPath_no_newline {q : List Char} (h : cleanAbsPath q) :
    ∀ c ∈ incLine q, c ≠ '\n' := by
  intro c hc
  rw [incLine] at hc
  rcases List.mem_append.mp hc with h1 | h2
  · fin_cases h1 <;> decide
  · intro heq
    have := h.2 c h2
    rw [heq] at this
    exact absurd this (by decide)

theorem expandAux_chain (fs : List Char → Option (List Char))
    (p : Nat → List Char) (hclean : ∀ k, cleanAbsPath (p k))
    (hfs : ∀ k, k ≤ 20 → fs (p k) = some (incLine (p (k + 1)))) :
    ∀ fuel n, fuel + n = 21 → ∀ inc,
      expandAux fs fuel (p n) inc =
        .error (.depthLimit CONFIG_INCLUDE_RECURSION_DEPTH_LIMIT) := by
  intro fuel
  induction fuel with
  | zero => intro n hn inc; rfl
  | succ fuel ih =>
    intro n hn inc
    have hn20 : n ≤ 20 := by omega
    have hsplit : splitOnChar '\n' (incLine (p (n + 1))) = [incLine (p (n + 1))] :=
      splitOnChar_of_not_mem (cleanAbsPath_no_newline (hclean (n + 1)))
    obtain ⟨q2, hq⟩ := isAbsPath_shape (hclean (n + 1)).1
    have hparse : parseIncludeLine (incLine (p (n + 1))) = some ([], p (n + 1)) := by
      rw [hq]; exact parseIncludeLine_incLine
    rw [expandAux_read fs fuel inc (hfs n hn20), hsplit,
      processLinesWith_cons_directive _ _ [] inc hparse,
      resolveIncludePath_clean (hclean (n + 1)), ih (n + 1) (by omega)]

/-- C2: an include chain deeper than the fixed ceiling, a self-include
cycle included, makes expansion fail with the recursion-limit error
carrying the configured limit; the error constructor is the whole result,
so no bytes and no include set are returned.  First conjunct: the guard
itself, for every state whose depth exceeds the limit.  Second conjunct:
any chain of files each including the next to depth beyond the ceiling
fails from the root with exactly this error. -/
theorem claim_c2_recursion_limit :
    (∀ (fs : List Char → Option (List Char)) (path : List Char)
       (includes : List (List Char)) (depth : Nat),
       CONFIG_INCLUDE_RECURSION_DEPTH_LIMIT < depth →
       RecursiveParseYAMLIncludes fs path includes depth =
         .error (.depthLimit CONFIG_INCLUDE_RECURSION_DEPTH_LIMIT)) ∧
    (∀ (fs : List Char → Option (List Char)) (p : Nat → List Char),
       (∀ k, cleanAbsPath (p k)) →
       (∀ k, k ≤ 20 → fs (p k) = some (incLine (p (k + 1)))) →
       ParseYAMLIncludes fs (p 0) =
         .error (.depthLimit CONFIG_INCLUDE_RECURSION_DEPTH_LIMIT)) := by
  constructor
  · intro fs path includes depth hd
    rw [RecursiveParseYAMLIncludes,
      show CONFIG_INCLUDE_RECURSION_DEPTH_LIMIT + 1 - depth = 0 by
        rw [CONFIG_INCLUDE_RECURSION_DEPTH_LIMIT] at hd ⊢; omega]
    rfl
  · intro fs p hclean hfs
    exact expandAux_chain fs p hclean hfs 21 0 rfl []

/-- The filesystem of the C2 witness: one file including itself. -/
def c2fs : List Char → Option (List Char) :=
  fun s => if s = ("/a").data then some (incLine (("/a").data)) else none

/-- C2 witness: the theorem applied to the one-file cycle. -/
theorem claim_c2_recursion_limit_witness :
    ParseYAMLIncludes c2fs (("/a").data) =
      .error (.depthLimit CONFIG_INCLUDE_RECURSION_DEPTH_LIMIT) :=
  claim_c2_recursion_limit.2 c2fs (fun _ => ("/a").data)
    (fun _ => show cleanAbsPath (("/a").data) by decide) (fun _ _ => rfl)

/-! ## Claim C5: the visited include set -/

theorem mem_insertPath_self (p : List Char) (s : List (List Char)) :
    p ∈ insertPath p s := by
  rw [insertPath]
  split
  · assumption
  · simp

theorem mem_insertPath_of_mem {q : List Char} {s : List (List Char)}
    (p : List Char) (h : q ∈ s) : q ∈ insertPath p s := by
  rw [insertPath]
  split
  · exact h
  · exact List.mem_append_left _ h

theorem processLinesWith_subset {e : Type}
    {expand : List Char → List (List Char) →
      Except e (List Char × List (List Char))}
    (hexp : ∀ p inc b s, expand p inc = .ok (b, s) → ∀ q ∈ inc, q ∈ s)
    (dir : List Char) :
    ∀ (ls : List (List Char)) (inc rs out : List (List Char)),
      processLinesWith expand dir ls inc = .ok (rs, out) → ∀ q ∈ inc, q ∈ out := by
  intro ls
  induction ls with
  | nil =>
    intro inc rs out h q hq
    rw [processLinesWith_nil] at h
    simp only [Except.ok.injEq, Prod.mk.injEq] at h
    rw [← h.2]
    exact hq
  | cons l ls ih =>
    intro inc rs out h q hq
    cases hp : parseIncludeLine l with
    | none =>
      rw [processLinesWith_cons_plain _ _ ls inc hp] at h
      cases hrec : processLinesWith expand dir ls inc with
      | error e2 => rw [hrec] at h; exact absurd h (by simp)
      | ok v =>
        obtain ⟨rs0, i2⟩ := v
        rw [hrec] at h
        simp only [Except.ok.injEq, Prod.mk.injEq] at h
        rw [← h.2]
        exact ih inc rs0 i2 hrec q hq
    | some v =>
      obtain ⟨indent, rawPath⟩ := v
      rw [processLinesWith_cons_directive _ _ ls inc hp] at h
      split at h
      · exact absurd h (by simp)
      · rename_i sub i2 hexp2
        cases hrec : processLinesWith expand dir ls i2 with
        | error e2 => rw [hrec] at h; exact absurd h (by simp)
        | ok v3 =>
          obtain ⟨rs0, i3⟩ := v3
          rw [hrec] at h
          simp only [Except.ok.injEq, Prod.mk.injEq] at h
          rw [← h.2]
          exact ih i2 rs0 i3 hrec q
            (hexp _ _ _ _ hexp2 q (mem_insertPath_of_mem _ hq))

theorem expandAux_subset (fs : List Char → Option (List Char)) :
    ∀ (fuel : Nat) (path : List Char) (inc : List (List Char))
      (b : List Char) (s : List (List Char)),
      expandAux fs fuel path inc = .ok (b, s) → ∀ q ∈ inc, q ∈ s := by
  intro fuel
  induction fuel with
  | zero => intro path inc b s h; exact absurd h (by rw [expandAux_zero]; simp)
  | succ fuel ih =>
    intro path inc b s h q hq
    cases hfs : fs path with
    | none => rw [expandAux_read_fail fs fuel inc hfs] at h; exact absurd h (by simp)
    | some contents =>
      rw [expandAux_read fs fuel inc hfs] at h
      cases hpr : processLinesWith (fun a b => expandAux fs fuel a b)
          (goDir (goAbs path)) (splitOnChar '\n' contents) inc with
      | error e2 => rw [hpr] at h; exact absurd h (by simp)
      | ok v =>
        obtain ⟨outLines, i2⟩ := v
        rw [hpr] at h
        simp only [Except.ok.injEq, Prod.mk.injEq] at h
        rw [← h.2]
        exact processLinesWith_subset
          (fun p2 i2 b2 s2 hh => ih p2 i2 b2 s2 hh) _ _ inc outLines i2 hpr q hq

theorem processLinesWith_directive_mem {e : Type}
    {expand : List Char → List (List Char) →
      Except e (List Char × List (List Char))}
    (hexp : ∀ p inc b s, expand p inc = .ok (b, s) → ∀ q ∈ inc, q ∈ s)
    (dir : List Char) :
    ∀ (ls : List (List Char)) (inc rs out : List (List Char)),
      processLinesWith expand dir ls inc = .ok (rs, out) →
      ∀ l ∈ ls, ∀ ind rp, parseIncludeLine l = some (ind, rp) →
        resolveIncludePath dir rp ∈ out := by
  intro ls
  induction ls with
  | nil => intro inc rs out h l hl; exact absurd hl (by simp)
  | cons l0 ls ih =>
    intro inc rs out h l hl ind rp hpl
    cases hp : parseIncludeLine l0 with
    | none =>
      rw [processLinesWith_cons_plain _ _ ls inc hp] at h
      cases hrec : processLinesWith expand dir ls inc with
      | error e2 => rw [hrec] at h; exact absurd h (by simp)
      | ok v =>
        obtain ⟨rs0, i2⟩ := v
        rw [hrec] at h
        simp only [Except.ok.injEq, Prod.mk.injEq] at h
        rcases List.mem_cons.mp hl with h1 | h2
        · rw [h1] at hpl
          rw [hpl] at hp
          exact absurd hp (by simp)
        · rw [← h.2]
          exact ih inc rs0 i2 hrec l h2 ind rp hpl
    | some v =>
      obtain ⟨indent, rawPath⟩ := v
      rw [processLinesWith_cons_directive _ _ ls inc hp] at h
      split at h
      · exact absurd h (by simp)
      · rename_i sub i2 hexp2
        cases hrec : processLinesWith expand dir ls i2 with
        | error e2 => rw [hrec] at h; exact absurd h (by simp)
        | ok v3 =>
          obtain ⟨rs0, i3⟩ := v3
          rw [hrec] at h
          simp only [Except.ok.injEq, Prod.mk.injEq] at h
          rw [← h.2]
          rcases List.mem_cons.mp hl with h1 | h2
          · rw [h1] at hpl
            rw [hpl] at hp
            simp only [Option.some.injEq, Prod.mk.injEq] at hp
            rw [hp.2]
            exact processLinesWith_subset hexp dir ls i2 rs0 i3 hrec _
              (hexp _ _ _ _ hexp2 _ (mem_insertPath_self _ _))
          · exact ih i2 rs0 i3 hrec l h2 ind rp hpl

/-- The filesystem of the C5 counterexample: the root includes a file the
filesystem cannot read. -/
def c5fs : List Char → Option (List Char) :=
  fun s => if s = ("/r").data then some (incLine (("/missing").data)) else none

/-- C5 counterexample: the root's directive resolves to the missing path,
that path's own expansion fails, and the expansion as a whole returns the
read error and no include set at all, so the resolved path is not in any
returned set. -/
theorem claim_c5_counterexample :
    parseIncludeLine (incLine (("/missing").data)) =
      some ([], ("/missing").data) ∧
    resolveIncludePath (goDir (goAbs (("/r").data))) (("/missing").data) =
      ("/missing").data ∧
    ParseYAMLIncludes c5fs (("/r").data) =
      .error (.readError (("/missing").data)) ∧
    ∀ b s, ParseYAMLIncludes c5fs (("/r").data) ≠ .ok (b, s) := by
  refine ⟨by decide, by decide, by decide, ?_⟩
  intro b s h
  rw [show ParseYAMLIncludes c5fs (("/r").data) =
    .error (.readError (("/missing").data)) by decide] at h
  exact Except.noConfusion h

/-- C5 amended: every resolved include path is inserted into the visited
set before recursing, so on a successful expansion the returned set
contains the whole input set and every path resolved from the processed
file's directive lines; when a nested expansion fails, the expansion
returns only the error and no set (see the counterexample). -/
theorem claim_c5_amended (fs : List Char → Option (List Char))
    (path contents b : List Char) (inc s : List (List Char)) (depth : Nat)
    (hread : fs path = some contents)
    (hok : RecursiveParseYAMLIncludes fs path inc depth = .ok (b, s)) :
    (∀ q ∈ inc, q ∈ s) ∧
    (∀ l ∈ splitOnChar '\n' contents, ∀ ind rp,
       parseIncludeLine l = some (ind, rp) →
       resolveIncludePath (goDir (goAbs path)) rp ∈ s) := by
  rw [RecursiveParseYAMLIncludes] at hok
  cases hfuel : CONFIG_INCLUDE_RECURSION_DEPTH_LIMIT + 1 - depth with
  | zero => rw [hfuel, expandAux_zero] at hok; exact absurd hok (by simp)
  | succ fuel =>
    rw [hfuel, expandAux_read fs fuel inc hread] at hok
    cases hpr : processLinesWith (fun a b => expandAux fs fuel a b)
        (goDir (goAbs path)) (splitOnChar '\n' contents) inc with
    | error e2 => rw [hpr] at hok; exact absurd hok (by simp)
    | ok v =>
      obtain ⟨outLines, i2⟩ := v
      rw [hpr] at hok
      simp only [Except.ok.injEq, Prod.mk.injEq] at hok
      rw [← hok.2]
      constructor
      · exact processLinesWith_subset
          (fun p2 i3 b2 s2 hh => expandAux_subset fs fuel p2 i3 b2 s2 hh)
          _ _ inc outLines i2 hpr
      · exact processLinesWith_directive_mem
          (fun p2 i3 b2 s2 hh => expandAux_subset fs fuel p2 i3 b2 s2 hh)
          _ _ inc outLines i2 hpr

/-- The filesystem of the C5 witness: the root includes one readable
file. -/
def c5wfs : List Char → Option (List Char) :=
  fun s => if s = ("/r").data then some (incLine (("/inc").data))
    else if s = ("/inc").data then some (("x: 1").data) else none

/-- C5 witness: the amended theorem applied to a successful expansion
puts the resolved include path in the returned set. -/
theorem claim_c5_amended_witness :
    resolveIncludePath (goDir (goAbs (("/r").data))) (("/inc").data) ∈
      [("/inc").data] :=
  (claim_c5_amended c5wfs (("/r").data) (incLine (("/inc").data))
      (("x: 1").data) [] [("/inc").data] 0 rfl (by decide)).2
    (incLine (("/inc").data)) (by decide) [] (("/inc").data) (by decide)

/-! ## Claim C8: the full-column count check -/

theorem validateColumns_err_shape {page : Nat} :
    ∀ (j : Nat) (cols : List Column) (e : ConfigError),
      validateColumns page j cols = some e →
      ∃ jj, e = .columnBadSize jj page := by
  intro j cols
  induction cols generalizing j with
  | nil => intro e h; exact absurd h (by rw [validateColumns]; simp)
  | cons col cols ih =>
    intro e h
    rw [validateColumns] at h
    split at h
    · simp only [Option.some.injEq] at h
      exact ⟨j, h.symm⟩
    · exact ih (j + 1) e h

theorem validatePage_none_full {i : Nat} {p : Page}
    (h : validatePage i p = none) :
    countFullColumns p.columns = 1 ∨ countFullColumns p.columns = 2 := by
  rw [validatePage] at h
  split_ifs at h
  · split at h <;> exact absurd h (by simp)
  · omega

theorem validatePage_fullError {i m : Nat} {p : Page}
    (h : validatePage i p = some (.pageFullColumns m)) :
    m = i ∧ (countFullColumns p.columns = 0 ∨ 2 < countFullColumns p.columns) := by
  rw [validatePage] at h
  split_ifs at h
  all_goals try (injection h with h; exact absurd h (by simp))
  all_goals split at h
  all_goals try (exact Option.noConfusion h)
  all_goals injection h with h
  all_goals try
    (rename_i e2 hcols
     rw [h] at hcols
     obtain ⟨jj, hjj⟩ := validateColumns_err_shape 1 p.columns _ hcols
     exact absurd hjj (by simp))
  all_goals injection h with h
  all_goals exact ⟨h.symm, by omega⟩

theorem validatePages_ok :
    ∀ (i : Nat) (ps : List Page), validatePages i ps = none →
      ∀ p ∈ ps, countFullColumns p.columns = 1 ∨ countFullColumns p.columns = 2 := by
  intro i ps
  induction ps generalizing i with
  | nil => intro h p hp; exact absurd hp (by simp)
  | cons p0 ps ih =>
    intro h p hp
    rw [validatePages] at h
    cases hv : validatePage (i + 1) p0 with
    | some e => rw [hv] at h; exact absurd h (by simp)
    | none =>
      rw [hv] at h
      rcases List.mem_cons.mp hp with h1 | h2
      · rw [h1]; exact validatePage_none_full hv
      · exact ih (i + 1) h p h2

theorem validatePages_fullError :
    ∀ (i : Nat) (ps : List Page) (m : Nat),
      validatePages i ps = some (.pageFullColumns m) →
      ∃ (j : Nat) (hj : j < ps.length), m = i + j + 1 ∧
        (countFullColumns (ps.get ⟨j, hj⟩).columns = 0 ∨
         2 < countFullColumns (ps.get ⟨j, hj⟩).columns) := by
  intro i ps
  induction ps generalizing i with
  | nil => intro m h; exact absurd h (by rw [validatePages]; simp)
  | cons p0 ps ih =>
    intro m h
    rw [validatePages] at h
    cases hv : validatePage (i + 1) p0 with
    | some e =>
      rw [hv] at h
      simp only [Option.some.injEq] at h
      rw [h] at hv
      obtain ⟨hm, hcount⟩ := validatePage_fullError hv
      exact ⟨0, by simp, by omega, by simpa using hcount⟩
    | none =>
      rw [hv] at h
      obtain ⟨j, hj, hm, hcount⟩ := ih (i + 1) m h
      exact ⟨j + 1, by simpa using hj, by omega, by simpa using hcount⟩

theorem validateUser_ne_full {u : List Char} {us : User} {e : ConfigError}
    (h : validateUser u us = some e) : ∀ m, e ≠ .pageFullColumns m := by
  rw [validateUser] at h
  split_ifs at h <;>
    (simp only [Option.some.injEq] at h; rw [← h]; intro m; simp)

theorem validateUsers_ne_full :
    ∀ (us : List (List Char × User)) (e : ConfigError),
      validateUsers us = some e → ∀ m, e ≠ .pageFullColumns m := by
  intro us
  induction us with
  | nil => intro e h; exact absurd h (by rw [validateUsers]; simp)
  | cons p us ih =>
    intro e h
    obtain ⟨u, us0⟩ := p
    rw [validateUsers] at h
    cases hv : validateUser u us0 with
    | some e2 =>
      rw [hv] at h
      simp only [Option.some.injEq] at h
      rw [← h]
      exact validateUser_ne_full hv
    | none =>
      rw [hv] at h
      exact ih e h

/-- C8: validation accepts a configuration only if every page has exactly
one or two full-size columns, and whenever validation rejects with the
full-columns error, that error names (one-based) a page whose full-column
count is zero or exceeds two. -/
theorem claim_c8_full_columns (fsExists : List Char → Bool) (c : Config) :
    (IsConfigStateValid fsExists c = none →
      ∀ p ∈ c.pages,
        countFullColumns p.columns = 1 ∨ countFullColumns p.columns = 2) ∧
    (∀ m, IsConfigStateValid fsExists c = some (.pageFullColumns m) →
      ∃ (j : Nat) (hj : j < c.pages.length), m = j + 1 ∧
        (countFullColumns (c.pages.get ⟨j, hj⟩).columns = 0 ∨
         2 < countFullColumns (c.pages.get ⟨j, hj⟩).columns)) := by
  constructor
  · intro h
    rw [IsConfigStateValid] at h
    by_cases h1 : c.pages = []
    · rw [if_pos h1] at h; exact absurd h (by simp)
    rw [if_neg h1] at h
    by_cases h2 : c.authUsers ≠ [] ∧ c.authSecretKey = []
    · rw [if_pos h2] at h; exact absurd h (by simp)
    rw [if_neg h2] at h
    cases hu : validateUsers c.authUsers with
    | some e => rw [hu] at h; exact absurd h (by simp)
    | none =>
      rw [hu] at h
      have h3 : (if c.serverAssetsPath ≠ [] ∧ !fsExists c.serverAssetsPath then
          some (.assetsDirMissing c.serverAssetsPath)
        else validatePages 0 c.pages) = none := h
      split_ifs at h3 with h4
      exact validatePages_ok 0 c.pages h3
  · intro m h
    rw [IsConfigStateValid] at h
    by_cases h1 : c.pages = []
    · rw [if_pos h1] at h; exact absurd h (by simp)
    rw [if_neg h1] at h
    by_cases h2 : c.authUsers ≠ [] ∧ c.authSecretKey = []
    · rw [if_pos h2] at h; exact absurd h (by simp)
    rw [if_neg h2] at h
    cases hu : validateUsers c.authUsers with
    | some e =>
      rw [hu] at h
      have h5 : (some e : Option ConfigError) = some (.pageFullColumns m) := h
      simp only [Option.some.injEq] at h5
      exact absurd h5 (validateUsers_ne_full c.authUsers e hu m)
    | none =>
      rw [hu] at h
      have h3 : (if c.serverAssetsPath ≠ [] ∧ !fsExists c.serverAssetsPath then
          some (.assetsDirMissing c.serverAssetsPath)
        else validatePages 0 c.pages) = some (.pageFullColumns m) := h
      split_ifs at h3 with h4
      · exact absurd (Option.some.inj h3) (by simp)
      · obtain ⟨j, hj, hm, hcount⟩ := validatePages_fullError 0 c.pages m h3
        exact ⟨j, hj, by omega, hcount⟩

/-- The C8 witness configuration: one page with one full and one small
column. -/
def c8config : Config :=
  { serverAssetsPath := [], authSecretKey := [], authUsers := [],
    pages := [{ title := ("home").data, width := [],
                desktopNavigationWidth := [],
                columns := [{ size := ("full").data },
                            { size := ("small").data }] }] }

/-- C8 witness: validation accepts the configuration and the theorem
yields the column-count bound for its page. -/
theorem claim_c8_full_columns_witness :
    countFullColumns (c8config.pages.get
        ⟨0, by rw [c8config]; simp⟩).columns = 1 ∨
    countFullColumns (c8config.pages.get
        ⟨0, by rw [c8config]; simp⟩).columns = 2 :=
  (claim_c8_full_columns (fun _ => false) c8config).1 (by decide)
    (c8config.pages.get ⟨0, by rw [c8config]; simp⟩) (by decide)

/-! ## Claim C6: env references -/

/-- C6: for an env-type reference, a name outside the strict pattern
leaves the placeholder untouched with no error (last conjunct: the whole
matched text passes through the scan verbatim); a matching name absent
from the environment is the not-found error; a present name resolves to
its value. -/
theorem claim_c6_env_reference (ctx : VarContext) (n : List Char) :
    (envVariableNameMatches n = false →
      ParseConfigVariableOfType ctx (("env").data) n = .original) ∧
    (envVariableNameMatches n = true → ctx.env n = none →
      ParseConfigVariableOfType ctx (("env").data) n =
        .err (.envNotFound n)) ∧
    (∀ v, envVariableNameMatches n = true → ctx.env n = some v →
      ParseConfigVariableOfType ctx (("env").data) n = .val v) ∧
    (envVariableNameMatches n = false →
      ∀ cs t rest, parsePlaceholder cs = some (t, n, rest) →
        (t = [] ∨ t = ("env").data) →
        replaceVars (fun ty nm => ParseConfigVariableOfType ctx ty nm) true cs =
          Except.map (fun o => reconstructPlaceholder t n ++ o)
            (replaceVars (fun ty nm => ParseConfigVariableOfType ctx ty nm)
              false rest)) := by
  have henv : ∀ h : envVariableNameMatches n = false,
      ParseConfigVariableOfType ctx (("env").data) n = .original := by
    intro h
    rw [ParseConfigVariableOfType, if_pos rfl, h]
    rfl
  refine ⟨henv, ?_, ?_, ?_⟩
  · intro h1 h2
    rw [ParseConfigVariableOfType, if_pos rfl, h1]
    simp only [Bool.not_true, Bool.false_eq_true, if_false, h2]
  · intro v h1 h2
    rw [ParseConfigVariableOfType, if_pos rfl, h1]
    simp only [Bool.not_true, Bool.false_eq_true, if_false, h2]
  · intro h cs t rest hp ht
    rw [replaceVars_true_start_match _ hp, startMatchResult]
    have hty : typeOrEnv t = ("env").data := by
      rcases ht with h1 | h1
      · rw [h1]; rfl
      · rw [typeOrEnv, h1]
        simp
    rw [hty, henv h]

/-- C6 witness context: only FOO is set. -/
def c6ctx : VarContext :=
  { env := fun s => if s = ("FOO").data then some (("bar").data) else none,
    fs := fun _ => none }

/-- C6 witness: the theorem applied to a lowercase name, an unset
matching name and a set matching name. -/
theorem claim_c6_env_reference_witness :
    ParseConfigVariableOfType c6ctx (("env").data) (("foo").data) =
      .original ∧
    ParseConfigVariableOfType c6ctx (("env").data) (("BAR").data) =
      .err (.envNotFound (("BAR").data)) ∧
    ParseConfigVariableOfType c6ctx (("env").data) (("FOO").data) =
      .val (("bar").data) ∧
    replaceVars (fun ty nm => ParseConfigVariableOfType c6ctx ty nm) true
        (("${foo}").data) =
      Except.map
        (fun o => reconstructPlaceholder [] (("foo").data) ++ o)
        (replaceVars (fun ty nm => ParseConfigVariableOfType c6ctx ty nm)
          false []) :=
  ⟨(claim_c6_env_reference c6ctx (("foo").data)).1 (by decide),
   (claim_c6_env_reference c6ctx (("BAR").data)).2.1 (by decide) rfl,
   (claim_c6_env_reference c6ctx (("FOO").data)).2.2.1 (("bar").data)
     (by decide) rfl,
   (claim_c6_env_reference c6ctx (("foo").data)).2.2.2 (by decide)
     (("${foo}").data) [] [] (by decide) (Or.inl rfl)⟩

/-! ## Claim C3: escaped placeholders -/

/-- C3: a placeholder preceded by a backslash is never resolved and never
errors at that match: the scan emits the placeholder text with the
backslash stripped and continues after it, whatever the resolver and the
scan state; in particular the escaped FOO placeholder alone in a document
parses to the unescaped placeholder text for every context, set or
unset. -/
theorem claim_c3_escaped :
    (∀ (r : List Char → List Char → VarLookup) (b : Bool)
       (cs t n rest : List Char), parsePlaceholder cs = some (t, n, rest) →
       replaceVars r b ('\\' :: cs) =
         Except.map (fun o => reconstructPlaceholder t n ++ o)
           (replaceVars r false rest)) ∧
    (∀ ctx : VarContext,
       ParseConfigVariables ctx ('\\' :: (("${FOO}").data)) =
         .ok (("${FOO}").data)) := by
  have hgen : ∀ (r : List Char → List Char → VarLookup) (b : Bool)
      (cs t n rest : List Char), parsePlaceholder cs = some (t, n, rest) →
      replaceVars r b ('\\' :: cs) =
        Except.map (fun o => reconstructPlaceholder t n ++ o)
          (replaceVars r false rest) := by
    intro r b cs t n rest hp
    have h0 : parsePlaceholder ('\\' :: cs) = none :=
      parsePlaceholder_of_ne_dollar (by decide) cs
    cases b with
    | false =>
      rw [replaceVars_false_match r (by decide) hp, midMatchResult, if_pos rfl]
    | true =>
      rw [replaceVars_true_mid_match r h0 (by decide) hp, midMatchResult,
        if_pos rfl]
  refine ⟨hgen, ?_⟩
  intro ctx
  rw [ParseConfigVariables,
    hgen _ true (("${FOO}").data) [] (("FOO").data) [] (by decide),
    replaceVars_nil]
  rfl

/-- C3 witness: the general conjunct applied at the concrete escaped
input with an empty environment. -/
theorem claim_c3_escaped_witness :
    ParseConfigVariables
        { env := fun _ => none, fs := fun _ => none }
        ('\\' :: (("${FOO}").data)) =
      .ok (("${FOO}").data) :=
  claim_c3_escaped.2 { env := fun _ => none, fs := fun _ => none }

/-! ## Claim C4: all-or-nothing resolution -/

/-- C4: variable parsing is all-or-nothing: if the reference scan of the
document finds a first non-ignorable reference whose resolution fails,
the whole parse returns exactly that error and no bytes (the error
constructor carries nothing else); if no scanned reference fails, the
parse returns a document.  No partially substituted document is ever
returned. -/
theorem claim_c4_all_or_nothing (ctx : VarContext) (cs : List Char) :
    (∀ e, scanFirstErr (fun t n => ParseConfigVariableOfType ctx t n) true cs =
        some e → ParseConfigVariables ctx cs = .error e) ∧
    (scanFirstErr (fun t n => ParseConfigVariableOfType ctx t n) true cs =
        none → ∃ o, ParseConfigVariables ctx cs = .ok o) :=
  replaceVars_eq_scanFirstErr (fun t n => ParseConfigVariableOfType ctx t n)
    cs true

/-- C4 witness context: nothing is set. -/
def c4ctx : VarContext :=
  { env := fun _ => none, fs := fun _ => none }

/-- C4 witness: the theorem applied to a document whose single reference
is unresolvable makes the whole parse fail with that error. -/
theorem claim_c4_all_or_nothing_witness :
    ParseConfigVariables c4ctx (("${FOO}").data) =
      .error (.envNotFound (("FOO").data)) := by
  have hscan : scanFirstErr (fun t n => ParseConfigVariableOfType c4ctx t n)
      true (("${FOO}").data) = some (.envNotFound (("FOO").data)) := by
    rw [scanFirstErr_true_start_match _
      (show parsePlaceholder (("${FOO}").data) =
        some ([], ("FOO").data, []) by decide)]
    rfl
  exact (claim_c4_all_or_nothing c4ctx (("${FOO}").data)).1 _ hscan

/-! ## Claim C10: adjacent placeholders -/

theorem isVarNameChar_of_env {c : Char} (h : isEnvNameChar c = true) :
    isVarNameChar c = true := by
  rw [isEnvNameChar] at h
  rw [isVarNameChar, isAlphaChar]
  rcases Bool.or_eq_true_iff.mp h with h1 | h1
  · rcases Bool.or_eq_true_iff.mp h1 with h2 | h2 <;> simp [h2]
  · simp [h1]

theorem takeWhile_append_stop {p : Char → Bool} :
    ∀ {l : List Char} {b : Char} (r : List Char),
      (∀ c ∈ l, p c = true) → p b = false →
      (l ++ b :: r).takeWhile p = l ∧ (l ++ b :: r).dropWhile p = b :: r := by
  intro l
  induction l with
  | nil =>
    intro b r hl hb
    simp [List.takeWhile, List.dropWhile, hb]
  | cons c cs ih =>
    intro b r hl hb
    have hc : p c = true := hl c (by simp)
    obtain ⟨h1, h2⟩ := ih r (fun x hx => hl x (by simp [hx])) hb
    constructor
    · simp only [List.cons_append, List.takeWhile_cons, hc, if_true]
      rw [h1]
    · simp only [List.cons_append, List.dropWhile_cons, hc, if_true]
      exact h2

theorem parseAfterBrace_envName {nA rest : List Char}
    (h : envVariableNameMatches nA = true) :
    parseAfterBrace (nA ++ '}' :: rest) = some ([], nA, rest) := by
  have hne : nA ≠ [] := by
    rw [envVariableNameMatches] at h
    rcases Bool.and_eq_true_iff.mp h with ⟨h1, _⟩
    simpa using h1
  have hall : ∀ c ∈ nA, isEnvNameChar c = true := by
    rw [envVariableNameMatches] at h
    rcases Bool.and_eq_true_iff.mp h with ⟨_, h2⟩
    exact fun c hc => List.all_eq_true.mp h2 c hc
  have hvar : ∀ c ∈ nA, isVarNameChar c = true :=
    fun c hc => isVarNameChar_of_env (hall c hc)
  have hclose : parseNameClose (nA ++ '}' :: rest) = some (nA, rest) := by
    obtain ⟨ht, hd⟩ := takeWhile_append_stop rest hvar
      (show isVarNameChar '}' = false by decide)
    rw [parseNameClose]
    simp only [ht, hd]
    simp [hne]
  rw [parseAfterBrace]
  split
  · rename_i r2 heq
    exfalso
    by_cases hD : (nA.dropWhile isAlphaChar).isEmpty
    · rw [List.dropWhile_append] at heq
      rw [if_pos hD] at heq
      rw [show List.dropWhile isAlphaChar ('}' :: rest) = '}' :: rest by
        rw [List.dropWhile]
        simp [show isAlphaChar '}' = false from by decide]] at heq
      exact absurd (List.head_eq_of_cons_eq heq) (by decide)
    · rw [List.dropWhile_append, if_neg hD] at heq
      cases hdw : nA.dropWhile isAlphaChar with
      | nil => rw [hdw] at hD; exact hD rfl
      | cons d D2 =>
        rw [hdw] at heq
        simp only [List.cons_append] at heq
        have hd2 : d = ':' := List.head_eq_of_cons_eq heq
        have hmem : d ∈ nA := by
          have : d ∈ nA.dropWhile isAlphaChar := by rw [hdw]; simp
          exact List.dropWhile_subset _ this
        have := hall d hmem
        rw [hd2] at this
        exact absurd this (by decide)
  · rw [hclose]
    rfl

theorem parsePlaceholder_envName {nA rest : List Char}
    (h : envVariableNameMatches nA = true) :
    parsePlaceholder ('$' :: '{' :: (nA ++ '}' :: rest)) =
      some ([], nA, rest) := by
  rw [parsePlaceholder, if_pos rfl, if_pos rfl]
  exact parseAfterBrace_envName h

/-- C10: two immediately adjacent placeholders with strict env names both
set in the environment: the scan substitutes only the first and leaves
the second verbatim with no error, because the pattern consumes one
character of context before an interior match and no such character is
available between the substituted text and the second placeholder. -/
theorem claim_c10_adjacent_placeholders (ctx : VarContext)
    (nA nB vA vB : List Char) (hA : envVariableNameMatches nA = true)
    (hB : envVariableNameMatches nB = true) (hvA : ctx.env nA = some vA)
    (hvB : ctx.env nB = some vB) :
    ParseConfigVariables ctx
        ('$' :: '{' :: (nA ++ '}' :: '$' :: '{' :: (nB ++ ['}']))) =
      .ok (vA ++ '$' :: '{' :: (nB ++ ['}'])) := by
  have hallB : ∀ c ∈ nB, isEnvNameChar c = true := by
    rw [envVariableNameMatches] at hB
    rcases Bool.and_eq_true_iff.mp hB with ⟨_, h2⟩
    exact fun c hc => List.all_eq_true.mp h2 c hc
  have hp1 : parsePlaceholder
      ('$' :: '{' :: (nA ++ '}' :: '$' :: '{' :: (nB ++ ['}']))) =
      some ([], nA, '$' :: '{' :: (nB ++ ['}'])) :=
    parsePlaceholder_envName hA
  have hres : ParseConfigVariableOfType ctx (typeOrEnv []) nA = .val vA := by
    rw [show typeOrEnv [] = ("env").data from rfl,
      ParseConfigVariableOfType, if_pos rfl, hA]
    simp only [Bool.not_true, Bool.false_eq_true, if_false, hvA]
  have hrest : replaceVars (fun t n => ParseConfigVariableOfType ctx t n)
      false ('$' :: '{' :: (nB ++ ['}'])) =
      .ok ('$' :: '{' :: (nB ++ ['}'])) := by
    have hnd : ∀ x ∈ '{' :: (nB ++ ['}']), x ≠ '$' := by
      intro x hx
      rcases List.mem_cons.mp hx with h1 | h1
      · rw [h1]; decide
      · rcases List.mem_append.mp h1 with h2 | h2
        · intro hc
          have := hallB x h2
          rw [hc] at this
          exact absurd this (by decide)
        · simp only [List.mem_singleton] at h2
          rw [h2]; decide
    have htail := replaceVars_no_dollar
      (fun t n => ParseConfigVariableOfType ctx t n) hnd
    have hpn : parsePlaceholder ('{' :: (nB ++ ['}'])) = none :=
      parsePlaceholder_of_ne_dollar (by decide) _
    rw [replaceVars_false_emit _ '$' hpn, htail]
    rfl
  rw [ParseConfigVariables, replaceVars_true_start_match _ hp1,
    startMatchResult, hres, hrest]
  rfl

/-- C10 witness context: A and B are both set. -/
def c10ctx : VarContext :=
  { env := fun s => if s = [('A' : Char)] then some (("x").data)
      else if s = [('B' : Char)] then some (("y").data) else none,
    fs := fun _ => none }

/-- C10 witness: the theorem applied to the adjacent A and B placeholders
substitutes A only. -/
theorem claim_c10_adjacent_placeholders_witness :
    ParseConfigVariables c10ctx (("${A}${B}").data) =
      .ok (("x${B}").data) :=
  claim_c10_adjacent_placeholders c10ctx [('A' : Char)] [('B' : Char)]
    (("x").data) (("y").data) (by decide) (by decide) rfl rfl

/-! ## Claim C9: the identity transform -/

theorem processLinesWith_no_directives {e : Type}
    (expand : List Char → List (List Char) →
      Except e (List Char × List (List Char))) (dir : List Char) :
    ∀ (ls : List (List Char)) (inc : List (List Char)),
      (∀ l ∈ ls, parseIncludeLine l = none) →
      processLinesWith expand dir ls inc = .ok (ls, inc) := by
  intro ls
  induction ls with
  | nil => intro inc h; rfl
  | cons l ls ih =>
    intro inc h
    rw [processLinesWith_cons_plain _ _ ls inc (h l (by simp)),
      ih inc (fun x hx => h x (by simp [hx]))]

theorem ParseYAMLIncludes_eq_expandAux (fs : List Char → Option (List Char))
    (path : List Char) :
    ParseYAMLIncludes fs path = expandAux fs (20 + 1) path [] := rfl

/-- C9: a document with no include directive on any line and no
placeholder match anywhere assembles to itself: include expansion returns
the bytes unchanged with an empty include set and variable parsing
returns them unchanged again. -/
theorem claim_c9_identity (fs : List Char → Option (List Char))
    (ctx : VarContext) (path contents : List Char)
    (hread : fs path = some contents)
    (hinc : ∀ l ∈ splitOnChar '\n' contents, parseIncludeLine l = none)
    (hvar : containsPlaceholder contents = false) :
    assembleDocument fs ctx path = .ok (contents, []) := by
  have h1 : ParseYAMLIncludes fs path = .ok (contents, []) := by
    rw [ParseYAMLIncludes_eq_expandAux, expandAux_read fs 20 [] hread,
      processLinesWith_no_directives _ _ _ [] hinc]
    show Except.ok (intercalateChar '\n' (splitOnChar '\n' contents), ([] : List (List Char))) = _
    rw [intercalateChar_splitOnChar]
  have h2 : ParseConfigVariables ctx contents = .ok contents :=
    replaceVars_of_not_containsPlaceholder _ true hvar
  rw [assembleDocument, h1]
  show (match ParseConfigVariables ctx contents with
    | Except.error e => Except.error (AssembleError.var e)
    | Except.ok resolved => Except.ok (resolved, ([] : List (List Char)))) = _
  rw [h2]

/-- C9 witness: the theorem applied to a two-line document with no
directives and no placeholders. -/
theorem claim_c9_identity_witness :
    assembleDocument (fun p => if p = ("/r").data
        then some (("a: 1\nb: два").data) else none)
      c4ctx (("/r").data) = .ok ((("a: 1\nb: два").data), []) :=
  claim_c9_identity _ c4ctx (("/r").data) (("a: 1\nb: два").data) rfl
    (by decide) (by decide)

/-! ## Claim C7: re-indentation of inlined content -/

theorem splitOnChar_pieces_not_mem (sep : Char) :
    ∀ (s : List Char), ∀ piece ∈ splitOnChar sep s, ∀ c ∈ piece, c ≠ sep := by
  intro s
  induction s with
  | nil =>
    intro piece hp c hc
    simp only [splitOnChar, List.mem_singleton] at hp
    rw [hp] at hc
    exact absurd hc (by simp)
  | cons c0 cs ih =>
    intro piece hp c hc
    simp only [splitOnChar] at hp
    split at hp
    · rcases List.mem_cons.mp hp with h1 | h1
      · rw [h1] at hc; exact absurd hc (by simp)
      · exact ih piece h1 c hc
    · rename_i hne
      have hcs := splitOnChar_ne_nil sep cs
      cases hsp : splitOnChar sep cs with
      | nil => exact absurd hsp hcs
      | cons l ls =>
        rw [hsp] at hp
        rcases List.mem_cons.mp hp with h1 | h1
        · rw [h1] at hc
          rcases List.mem_cons.mp hc with h2 | h2
          · rw [h2]; exact hne
          · exact ih l (by rw [hsp]; simp) c h2
        · exact ih piece (by rw [hsp]; simp [h1]) c hc

theorem splitOnChar_intercalateChar (sep : Char) :
    ∀ (ls : List (List Char)), ls ≠ [] →
      (∀ piece ∈ ls, ∀ c ∈ piece, c ≠ sep) →
      splitOnChar sep (intercalateChar sep ls) = ls := by
  intro ls
  induction ls with
  | nil => intro h; exact absurd rfl h
  | cons x ls ih =>
    intro _ hp
    cases ls with
    | nil =>
      rw [show intercalateChar sep [x] = x from rfl]
      exact splitOnChar_of_not_mem (hp x (by simp))
    | cons y ls2 =>
      rw [show intercalateChar sep (x :: y :: ls2) =
        x ++ sep :: intercalateChar sep (y :: ls2) from rfl,
        splitOnChar_append_cons (hp x (by simp)),
        ih (by simp) (fun p hp2 c hc => hp p (by simp [hp2]) c hc)]

/-- The line decomposition of PrefixStringLines: prefixing distributes
over the lines of the input when the prefix contains no newline. -/
theorem splitOnChar_PrefixStringLines {pre : List Char}
    (hpre : ∀ c ∈ pre, c ≠ '\n') (s : List Char) :
    splitOnChar '\n' (PrefixStringLines pre s) =
      (splitOnChar '\n' s).map (fun l => pre ++ l) := by
  rw [PrefixStringLines]
  apply splitOnChar_intercalateChar
  · simp [splitOnChar_ne_nil '\n' s]
  · intro piece hp c hc
    obtain ⟨l, hl, hpl⟩ := List.mem_map.mp hp
    rw [← hpl] at hc
    rcases List.mem_append.mp hc with h1 | h1
    · exact hpre c h1
    · exact splitOnChar_pieces_not_mem '\n' s l hl c h1

/-- A line of a file: no newline and not an include directive. -/
def plainLine (l : List Char) : Prop :=
  (∀ c ∈ l, c ≠ '\n') ∧ parseIncludeLine l = none

instance (l : List Char) : Decidable (plainLine l) := by
  unfold plainLine
  infer_instance

/-- The C7 file tree: a root whose single line is an include directive
indented by two spaces, and an included file of three lines. -/
def c7fs (l1 l2 l3 : List Char) : List Char → Option (List Char) :=
  fun p => if p = ("/r").data then some (("  !include: /inc").data)
    else if p = ("/inc").data then some (l1 ++ '\n' :: (l2 ++ '\n' :: l3))
    else none

/-- C7: the lines of re-indented content are exactly the original lines
each prefixed with the captured indentation (first conjunct, for every
prefix and content), and inlining a three-line file under a directive
indented by two spaces produces exactly those three lines, each prefixed
by the same two spaces (second conjunct, for all three line texts). -/
theorem claim_c7_reindentation :
    (∀ (pre : List Char), (∀ c ∈ pre, c ≠ '\n') → ∀ (s : List Char),
      splitOnChar '\n' (PrefixStringLines pre s) =
        (splitOnChar '\n' s).map (fun l => pre ++ l)) ∧
    (∀ l1 l2 l3 : List Char, plainLine l1 → plainLine l2 → plainLine l3 →
      ParseYAMLIncludes (c7fs l1 l2 l3) (("/r").data) =
        .ok ((("  ").data ++ l1) ++ '\n' ::
             ((("  ").data ++ l2) ++ '\n' :: (("  ").data ++ l3)),
          [("/inc").data])) := by
  refine ⟨fun pre hpre s => splitOnChar_PrefixStringLines hpre s, ?_⟩
  intro l1 l2 l3 h1 h2 h3
  have hsplit : splitOnChar '\n' (l1 ++ '\n' :: (l2 ++ '\n' :: l3)) =
      [l1, l2, l3] := by
    rw [splitOnChar_append_cons h1.1, splitOnChar_append_cons h2.1,
      splitOnChar_of_not_mem h3.1]
  have hsub : expandAux (c7fs l1 l2 l3) (19 + 1) (("/inc").data)
      [("/inc").data] =
      .ok (l1 ++ '\n' :: (l2 ++ '\n' :: l3), [("/inc").data]) := by
    rw [expandAux_read _ 19 _ (show c7fs l1 l2 l3 (("/inc").data) =
        some (l1 ++ '\n' :: (l2 ++ '\n' :: l3)) from rfl), hsplit,
      processLinesWith_no_directives _ _ [l1, l2, l3] _ (by
        intro l hl
        rcases List.mem_cons.mp hl with hh | hl2
        · rw [hh]; exact h1.2
        rcases List.mem_cons.mp hl2 with hh | hl3
        · rw [hh]; exact h2.2
        simp only [List.mem_singleton] at hl3
        rw [hl3]; exact h3.2)]
    rfl
  have hroot : splitOnChar '\n' (("  !include: /inc").data) =
      [("  !include: /inc").data] := by decide
  have hpl : parseIncludeLine (("  !include: /inc").data) =
      some ((("  ").data), ("/inc").data) := by decide
  have hpref2 : PrefixStringLines (("  ").data)
      (l1 ++ '\n' :: (l2 ++ '\n' :: l3)) =
      ((("  ").data ++ l1) ++ '\n' ::
       ((("  ").data ++ l2) ++ '\n' :: (("  ").data ++ l3))) := by
    rw [PrefixStringLines, hsplit]
    rfl
  rw [ParseYAMLIncludes_eq_expandAux,
    expandAux_read _ 20 [] (show c7fs l1 l2 l3 (("/r").data) =
      some (("  !include: /inc").data) from rfl), hroot,
    processLinesWith_cons_directive _ _ [] [] hpl,
    show resolveIncludePath (goDir (goAbs (("/r").data))) (("/inc").data) =
      ("/inc").data by decide,
    show insertPath (("/inc").data) [] = [("/inc").data] from rfl,
    show (20 : Nat) = 19 + 1 from rfl, hsub]
  show Except.ok (PrefixStringLines (("  ").data)
      (l1 ++ '\n' :: (l2 ++ '\n' :: l3)), [("/inc").data]) = _
  rw [hpref2]

/-- C7 witness: the theorem applied to three concrete lines. -/
theorem claim_c7_reindentation_witness :
    ParseYAMLIncludes (c7fs (("a: 1").data) (("b: 2").data) (("c: 3").data))
        (("/r").data) =
      .ok ((("  ").data ++ ("a: 1").data) ++ '\n' ::
           ((("  ").data ++ ("b: 2").data) ++ '\n' ::
            (("  ").data ++ ("c: 3").data)),
        [("/inc").data]) :=
  claim_c7_reindentation.2 (("a: 1").data) (("b: 2").data) (("c: 3").data)
    (by decide) (by decide) (by decide)

/-! ## Claim C1: substitution order across include boundaries -/

theorem replaceVars_false_match_val (r : List Char → List Char → VarLookup)
    {c : Char} {cs t n rest v : List Char} (hc : c ≠ '\n') (hb : c ≠ '\\')
    (h : parsePlaceholder cs = some (t, n, rest))
    (hr : r (typeOrEnv t) n = .val v) :
    replaceVars r false (c :: cs) =
      Except.map (fun o => c :: (v ++ o)) (replaceVars r false rest) := by
  rw [replaceVars_false_match r hc h, midMatchResult, if_neg hb, hr]

theorem replaceVars_true_start_match_val
    (r : List Char → List Char → VarLookup) {cs t n rest v : List Char}
    (h : parsePlaceholder cs = some (t, n, rest))
    (hr : r (typeOrEnv t) n = .val v) :
    replaceVars r true cs =
      Except.map (fun o => v ++ o) (replaceVars r false rest) := by
  rw [replaceVars_true_start_match r h, startMatchResult, hr]

theorem specExpandAux_read (fs : List Char → Option (List Char))
    (ctx : VarContext) (fuel : Nat) {path contents : List Char}
    (inc : List (List Char)) (h : fs path = some contents) :
    specExpandAux fs ctx (fuel + 1) path inc =
      match ParseConfigVariables ctx contents with
      | .error e => .error (.var e)
      | .ok substituted =>
        match processLinesWith (fun a b => specExpandAux fs ctx fuel a b)
            (goDir (goAbs path)) (splitOnChar '\n' substituted) inc with
        | .error e => .error e
        | .ok (outLines, i2) => .ok (intercalateChar '\n' outLines, i2) := by
  rw [specExpandAux, h]

theorem specAssembleDocument_eq (fs : List Char → Option (List Char))
    (ctx : VarContext) (path : List Char) :
    specAssembleDocument fs ctx path =
      specExpandAux fs ctx (20 + 1) path [] := rfl

/-- The C1 counterexample tree: the root includes a file whose content is
the pair of adjacent placeholders. -/
def c1fs : List Char → Option (List Char) :=
  fun p => if p = ("/r").data then some (("k:\n$include: /i").data)
    else if p = ("/i").data then some (("${A}${B}").data) else none

/-- The C1 counterexample context: A and B are both set. -/
def c1ctx : VarContext :=
  { env := fun s => if s = [('A' : Char)] then some (("x").data)
      else if s = [('B' : Char)] then some (("y").data) else none,
    fs := fun _ => none }

/-- C1 counterexample: on the same tree and environment, the assembly the
code performs (include expansion, then one substitution pass over the
assembled document) and the assembly the claim prescribes (per-file
substitution before splicing, nothing re-passed afterwards) return
different documents: the code resolves the B placeholder of the included
file against the assembled context and leaves A unresolved behind the
newline, while per-file substitution resolves A at the file start and
leaves B. -/
theorem claim_c1_counterexample :
    assembleDocument c1fs c1ctx (("/r").data) =
      .ok (("k:\n${A}y").data, [("/i").data]) ∧
    specAssembleDocument c1fs c1ctx (("/r").data) =
      .ok (("k:\nx${B}").data, [("/i").data]) ∧
    assembleDocument c1fs c1ctx (("/r").data) ≠
      specAssembleDocument c1fs c1ctx (("/r").data) := by
  have hvars_code : ParseConfigVariables c1ctx (("k:\n${A}${B}").data) =
      .ok (("k:\n${A}y").data) := by
    rw [ParseConfigVariables,
      replaceVars_true_emit _
        (show parsePlaceholder (("k:\n${A}${B}").data) = none by decide)
        (show parsePlaceholder ((":\n${A}${B}").data) = none by decide),
      replaceVars_false_emit _ ':'
        (show parsePlaceholder (("\n${A}${B}").data) = none by decide),
      replaceVars_newline,
      replaceVars_false_emit _ '$'
        (show parsePlaceholder (("{A}${B}").data) = none by decide),
      replaceVars_false_emit _ '{'
        (show parsePlaceholder ('A' :: '}' :: (("${B}").data)) = none by decide),
      replaceVars_false_emit _ 'A'
        (show parsePlaceholder ('}' :: (("${B}").data)) = none by decide),
      replaceVars_false_match_val _ (by decide) (by decide)
        (show parsePlaceholder (("${B}").data) =
          some ([], [('B' : Char)], []) by decide)
        (show (fun t n => ParseConfigVariableOfType c1ctx t n) (typeOrEnv [])
          [('B' : Char)] = .val (("y").data) from rfl),
      replaceVars_nil]
    rfl
  have hcode : assembleDocument c1fs c1ctx (("/r").data) =
      .ok (("k:\n${A}y").data, [("/i").data]) := by
    rw [assembleDocument,
      show ParseYAMLIncludes c1fs (("/r").data) =
        .ok (("k:\n${A}${B}").data, [("/i").data]) by decide]
    show (match ParseConfigVariables c1ctx (("k:\n${A}${B}").data) with
      | Except.error e => Except.error (AssembleError.var e)
      | Except.ok resolved => Except.ok (resolved, [("/i").data])) = _
    rw [hvars_code]
  have hvars_inc : ParseConfigVariables c1ctx (("${A}${B}").data) =
      .ok (("x${B}").data) := by
    rw [ParseConfigVariables,
      replaceVars_true_start_match_val _
        (show parsePlaceholder (("${A}${B}").data) =
          some ([], [('A' : Char)], ("${B}").data) by decide)
        (show (fun t n => ParseConfigVariableOfType c1ctx t n) (typeOrEnv [])
          [('A' : Char)] = .val (("x").data) from rfl),
      replaceVars_false_emit _ '$'
        (show parsePlaceholder (("{B}").data) = none by decide),
      replaceVars_no_dollar _ (show ∀ x ∈ ("{B}").data, x ≠ '$' by decide)]
    rfl
  have hvars_root : ParseConfigVariables c1ctx (("k:\n$include: /i").data) =
      .ok (("k:\n$include: /i").data) :=
    replaceVars_of_not_containsPlaceholder _ true (by decide)
  have hinner : specExpandAux c1fs c1ctx 20 (("/i").data) [("/i").data] =
      .ok (("x${B}").data, [("/i").data]) := by
    rw [show (20 : Nat) = 19 + 1 from rfl,
      specExpandAux_read c1fs c1ctx 19 [("/i").data]
        (show c1fs (("/i").data) = some (("${A}${B}").data) from rfl),
      hvars_inc]
    show (match processLinesWith
        (fun a b => specExpandAux c1fs c1ctx 19 a b)
        (goDir (goAbs (("/i").data))) (splitOnChar '\n' (("x${B}").data))
        [("/i").data] with
      | Except.error e => Except.error e
      | Except.ok (outLines, i2) =>
        Except.ok (intercalateChar '\n' outLines, i2)) = _
    rw [show splitOnChar '\n' (("x${B}").data) = [("x${B}").data] by decide,
      processLinesWith_no_directives _ _ _ [("/i").data] (by decide)]
    rfl
  have hspec : specAssembleDocument c1fs c1ctx (("/r").data) =
      .ok (("k:\nx${B}").data, [("/i").data]) := by
    rw [specAssembleDocument_eq,
      specExpandAux_read c1fs c1ctx 20 []
        (show c1fs (("/r").data) = some (("k:\n$include: /i").data) from rfl),
      hvars_root]
    show (match processLinesWith
        (fun a b => specExpandAux c1fs c1ctx 20 a b)
        (goDir (goAbs (("/r").data)))
        (splitOnChar '\n' (("k:\n$include: /i").data)) [] with
      | Except.error e => Except.error e
      | Except.ok (outLines, i2) =>
        Except.ok (intercalateChar '\n' outLines, i2)) = _
    rw [show splitOnChar '\n' (("k:\n$include: /i").data) =
        [("k:").data, ("$include: /i").data] by decide,
      processLinesWith_cons_plain _ _ [("$include: /i").data] []
        (show parseIncludeLine (("k:").data) = none by decide),
      processLinesWith_cons_directive _ _ [] []
        (show parseIncludeLine (("$include: /i").data) =
          some ([], ("/i").data) by decide),
      show resolveIncludePath (goDir (goAbs (("/r").data))) (("/i").data) =
        ("/i").data by decide,
      show insertPath (("/i").data) [] = [("/i").data] from rfl,
      hinner]
    rfl
  refine ⟨hcode, hspec, ?_⟩
  rw [hcode, hspec]
  decide

/-- The tree of the amended C1 claim: the root is a single directive and
the included file holds the placeholder. -/
def c1afs : List Char → Option (List Char) :=
  fun p => if p = ("/r").data then some (("$include: /i").data)
    else if p = ("/i").data then some (("k: ${FOO}").data) else none

/-- C1 amended: include expansion splices each included file's raw
content with no variable substitution, and variable substitution is
applied once to the fully assembled document after all inlining, so a
placeholder contained in an included file is resolved after inlining,
against the assembled document: for every environment binding FOO to a
value, assembling the tree substitutes that value into the included
file's spliced content. -/
theorem claim_c1_amended (ctx : VarContext) (v : List Char)
    (hv : ctx.env (("FOO").data) = some v) :
    assembleDocument c1afs ctx (("/r").data) =
      .ok ((("k: ").data) ++ v, [("/i").data]) := by
  have hres : (fun t n => ParseConfigVariableOfType ctx t n) (typeOrEnv [])
      (("FOO").data) = .val v := by
    show ParseConfigVariableOfType ctx (typeOrEnv []) (("FOO").data) = .val v
    rw [show typeOrEnv [] = ("env").data from rfl, ParseConfigVariableOfType,
      if_pos rfl, show envVariableNameMatches (("FOO").data) = true by decide]
    simp only [Bool.not_true, Bool.false_eq_true, if_false, hv]
  have hvars : ParseConfigVariables ctx (("k: ${FOO}").data) =
      .ok ((("k: ").data) ++ v) := by
    rw [ParseConfigVariables,
      replaceVars_true_emit _
        (show parsePlaceholder (("k: ${FOO}").data) = none by decide)
        (show parsePlaceholder ((": ${FOO}").data) = none by decide),
      replaceVars_false_emit _ ':'
        (show parsePlaceholder ((" ${FOO}").data) = none by decide),
      replaceVars_false_match_val _ (by decide) (by decide)
        (show parsePlaceholder (("${FOO}").data) =
          some ([], ("FOO").data, []) by decide) hres,
      replaceVars_nil]
    simp [Except.map]
  rw [assembleDocument,
    show ParseYAMLIncludes c1afs (("/r").data) =
      .ok (("k: ${FOO}").data, [("/i").data]) by decide]
  show (match ParseConfigVariables ctx (("k: ${FOO}").data) with
    | Except.error e => Except.error (AssembleError.var e)
    | Except.ok resolved => Except.ok (resolved, [("/i").data])) = _
  rw [hvars]

/-- C1 amended witness: the amended theorem applied to a concrete
binding of FOO. -/
theorem claim_c1_amended_witness :
    assembleDocument c1afs
        { env := fun s => if s = ("FOO").data then some (("bar").data)
            else none,
          fs := fun _ => none } (("/r").data) =
      .ok ((("k: ").data) ++ (("bar").data), [("/i").data]) :=
  claim_c1_amended _ (("bar").data) rfl

end Gander
